import Mathlib

/-!
The package limitfifo: a size limited chunked FIFO queue

Shallow embedding of `limitfifo.go`.  Go pointers to chunks are addresses into an explicit
chunk store carried by the queue state (`nil` is `none`), Go `int` is `Int` with explicit
two's complement wrap-around, `interface{}` values are `Option α` with `nil` as `none`, and a
panicking call is an explicit outcome.  The mutex is not modelled: every operation is one
atomic state transformer.
-/

set_option autoImplicit false

namespace limitfifo

/-! ## Data model -/

/-- The constant `chunkSize = 64`. -/
def chunkSize : Int := 64

/-- Go `int` arithmetic on a 64 bit target: the exact result wrapped into `[-2^63, 2^63)`. -/
def wrapInt (x : Int) : Int := (x + 2 ^ 63) % 2 ^ 64 - 2 ^ 63

/-- The struct `chunk`: `items` is the `[chunkSize]interface{}` array, `next` the `*chunk`. -/
structure chunk (α : Type) where
  items : List (Option α)
  first : Int
  last : Int
  next : Option Nat
deriving DecidableEq, Repr

/-- The struct `Queue` together with the store its chunk pointers point into: a `*chunk` is
`some a` for the chunk `mem[a]`, or `none` for `nil`. -/
structure Queue (α : Type) where
  mem : List (chunk α)
  head : Option Nat
  tail : Option Nat
  maxsize : Int
  count : Int
deriving DecidableEq, Repr

/-- The run-time panics of the program: the two `panic("...")` calls of `Add`, and the faults
the Go runtime raises on a nil pointer dereference or an array index out of range. -/
inductive Panic where
  | explicit (msg : String)
  | nilDeref
  | indexOutOfRange
deriving DecidableEq, Repr

/-- How a call ends: it returns a value, or it panics. -/
inductive Outcome (β : Type) where
  | ret (v : β)
  | panic (p : Panic)
deriving DecidableEq, Repr

/-- The constant `ERR_ADD_NIL = iota`. -/
def ERR_ADD_NIL : Int := 0

/-- The constant `ERR_OUT_OF_SIZE_LIMIT`. -/
def ERR_OUT_OF_SIZE_LIMIT : Int := 1

/-- The struct `ErrLimitFIFO`. -/
structure ErrLimitFIFO where
  eid : Int
deriving DecidableEq, Repr

/-- The method `ErrLimitFIFO.Error`. -/
def ErrLimitFIFO.Error (this : ErrLimitFIFO) : String :=
  if this.eid = ERR_ADD_NIL then "can not add nil item to fifo queue"
  else if this.eid = ERR_OUT_OF_SIZE_LIMIT then "out of max chunk number"
  else "unknown error"

/-- The value of `new(chunk)`: every slot `nil`, both cursors `0`, no successor. -/
def newChunk (α : Type) : chunk α :=
  { items := List.replicate 64 none, first := 0, last := 0, next := none }

/-- Dereference of a chunk pointer; `none` when the pointer is `nil` (or points nowhere). -/
def load {α : Type} (mem : List (chunk α)) (p : Option Nat) : Option (chunk α) :=
  match p with
  | none => none
  | some a => mem[a]?

/-! ## Operations -/

/-- The function `NewLimitQueue`. -/
def NewLimitQueue (α : Type) (maxChunkNum : Int) : Queue α :=
  { mem := [newChunk α]
    head := some 0
    tail := some 0
    maxsize := wrapInt (maxChunkNum * chunkSize)
    count := 0 }

/-- The method `Queue.Len`. -/
def Len {α : Type} (q : Queue α) : Queue α × Int := (q, q.count)

/-- The two statements `q.tail.next = new(chunk); q.tail = q.tail.next`, for the tail chunk
`tc` at address `t`: the new chunk gets the next free address. -/
def growTail {α : Type} (q : Queue α) (t : Nat) (tc : chunk α) : Queue α :=
  { q with
    mem := q.mem.set t { tc with next := some q.mem.length } ++ [newChunk α]
    tail := some q.mem.length }

/-- The three statements `q.tail.items[q.tail.last] = item; q.tail.last++; q.count++` that end
both `Add` and `SafeAdd`; the result is the fault they raise, if any. -/
def storeItem {α : Type} (q : Queue α) (item : Option α) : Queue α × Option Panic :=
  match q.tail, load q.mem q.tail with
  | some t, some tc =>
    if 0 ≤ tc.last ∧ tc.last < chunkSize then
      ({ q with
         mem := q.mem.set t
           { tc with items := tc.items.set tc.last.toNat item, last := wrapInt (tc.last + 1) }
         count := wrapInt (q.count + 1) }, none)
    else (q, some Panic.indexOutOfRange)
  | _, _ => (q, some Panic.nilDeref)

/-- The method `Queue.Add`. -/
def Add {α : Type} (q : Queue α) (item : Option α) : Queue α × Outcome Unit :=
  match item with
  | none => (q, Outcome.panic (Panic.explicit "can not add nil item to fifo queue"))
  | some _ =>
    match q.tail, load q.mem q.tail with
    | some t, some tc =>
      if tc.last ≥ chunkSize then
        if q.count < q.maxsize then
          match storeItem (growTail q t tc) item with
          | (q1, none) => (q1, Outcome.ret ())
          | (q1, some p) => (q1, Outcome.panic p)
        else (q, Outcome.panic (Panic.explicit "out of max chunk number"))
      else
        match storeItem q item with
        | (q1, none) => (q1, Outcome.ret ())
        | (q1, some p) => (q1, Outcome.panic p)
    | _, _ => (q, Outcome.panic Panic.nilDeref)

/-- The method `Queue.SafeAdd`; the returned `error` is `none` for `nil`. -/
def SafeAdd {α : Type} (q : Queue α) (item : Option α) :
    Queue α × Outcome (Option ErrLimitFIFO) :=
  match item with
  | none => (q, Outcome.ret (some { eid := ERR_ADD_NIL }))
  | some _ =>
    match q.tail, load q.mem q.tail with
    | some t, some tc =>
      if tc.last ≥ chunkSize then
        if q.count < q.maxsize then
          match storeItem (growTail q t tc) item with
          | (q1, none) => (q1, Outcome.ret none)
          | (q1, some p) => (q1, Outcome.panic p)
        else (q, Outcome.ret (some { eid := ERR_OUT_OF_SIZE_LIMIT }))
      else
        match storeItem q item with
        | (q1, none) => (q1, Outcome.ret none)
        | (q1, some p) => (q1, Outcome.panic p)
    | _, _ => (q, Outcome.panic Panic.nilDeref)

/-- The method `Queue.Next`; the returned item is `none` for `nil`. -/
def Next {α : Type} (q : Queue α) : Queue α × Outcome (Option α) :=
  if q.count = 0 then (q, Outcome.ret none)
  else
    match q.head, load q.mem q.head with
    | some h, some hc =>
      if hc.first ≥ hc.last then (q, Outcome.ret none)
      else if 0 ≤ hc.first ∧ hc.first < chunkSize then
        let item := hc.items.getD hc.first.toNat none
        let hc1 := { hc with first := wrapInt (hc.first + 1) }
        let count1 := wrapInt (q.count - 1)
        if hc1.first ≥ hc1.last then
          if count1 = 0 then
            ({ q with
               mem := q.mem.set h { hc1 with first := 0, last := 0, next := none }
               count := count1 }, Outcome.ret item)
          else
            ({ q with mem := q.mem.set h hc1, head := hc1.next, count := count1 },
              Outcome.ret item)
        else ({ q with mem := q.mem.set h hc1, count := count1 }, Outcome.ret item)
      else (q, Outcome.panic Panic.indexOutOfRange)
    | _, _ => (q, Outcome.panic Panic.nilDeref)

/-! ## Call sequences -/

/-- One call of the public interface. -/
inductive Call (α : Type) where
  | Add (item : Option α)
  | SafeAdd (item : Option α)
  | Next
  | Len
deriving DecidableEq, Repr

/-- What a call of the public interface gave back. -/
inductive Ret (α : Type) where
  | Add (r : Outcome Unit)
  | SafeAdd (r : Outcome (Option ErrLimitFIFO))
  | Next (r : Outcome (Option α))
  | Len (n : Int)
deriving DecidableEq, Repr

/-- Perform one call: the state it leaves and what it gave back. -/
def step {α : Type} (q : Queue α) : Call α → Queue α × Ret α
  | Call.Add item => ((Add q item).1, Ret.Add (Add q item).2)
  | Call.SafeAdd item => ((SafeAdd q item).1, Ret.SafeAdd (SafeAdd q item).2)
  | Call.Next => ((Next q).1, Ret.Next (Next q).2)
  | Call.Len => ((Len q).1, Ret.Len (Len q).2)

/-- Perform a sequence of calls one after the other (a panicking call is recovered by the
caller and the sequence goes on from the state the call left). -/
def run {α : Type} (q : Queue α) : List (Call α) → Queue α × List (Ret α)
  | [] => (q, [])
  | c :: cs => ((run (step q c).1 cs).1, (step q c).2 :: (run (step q c).1 cs).2)

/-! ## Abstraction -/

/-- Follow `next` pointers from `p`, collecting chunks, up to and including the chunk the
pointer `tl` points to. -/
def chainFrom {α : Type} (mem : List (chunk α)) (tl : Option Nat) :
    Nat → Option Nat → List (chunk α)
  | 0, _ => []
  | _ + 1, none => []
  | fuel + 1, some a =>
    match mem[a]? with
    | none => []
    | some c => if tl = some a then [c] else c :: chainFrom mem tl fuel c.next

/-- The chunks of the chain from `head` to `tail`. -/
def chain {α : Type} (q : Queue α) : List (chunk α) :=
  chainFrom q.mem q.tail q.mem.length q.head

/-- The occupied region `items[first:last]` of a chunk. -/
def slots {α : Type} (c : chunk α) : List (Option α) :=
  (c.items.drop c.first.toNat).take (c.last - c.first).toNat

/-- The abstract contents of the queue: the occupied regions of the chunks from head to tail,
concatenated. -/
def contents {α : Type} (q : Queue α) : List (Option α) :=
  ((chain q).map slots).flatten

/-! ## Structured states

A view describes a queue state by the shape every reachable state has: the store is the
discarded chunks `dead`, then the chain itself, `mid` followed by the tail chunk `tc`, in
allocation order; `head` points just after `dead` and `tail` at `tc`. -/

/-- The shape of a state: discarded chunks, the chunks of the chain before the tail, the
tail chunk, and the two integer fields. -/
structure View (α : Type) where
  dead : List (chunk α)
  mid : List (chunk α)
  tc : chunk α
  maxsize : Int
  count : Int

/-- The queue state a view describes. -/
def View.toQueue {α : Type} (v : View α) : Queue α :=
  { mem := v.dead ++ (v.mid ++ [v.tc])
    head := some v.dead.length
    tail := some (v.dead.length + v.mid.length)
    maxsize := v.maxsize
    count := v.count }

/-- The chunks of the chain a view describes. -/
def View.live {α : Type} (v : View α) : List (chunk α) := v.mid ++ [v.tc]

/-- The chunks `cs`, stored from address `a` on, each point to the address after their own. -/
def Linked {α : Type} : Nat → List (chunk α) → Prop
  | _, [] => True
  | a, c :: cs => c.next = some (a + 1) ∧ Linked (a + 1) cs

/-- The facts that hold of the view of every reachable state. -/
structure Good {α : Type} (v : View α) : Prop where
  linked : Linked v.dead.length v.mid
  tail_next : v.tc.next = none
  full : ∀ c ∈ v.mid, c.last = 64
  fresh : ∀ c ∈ v.live.tail, c.first = 0 ∧ 1 ≤ c.last
  ok : ∀ c ∈ v.live, c.items.length = 64 ∧ 0 ≤ c.first ∧ c.last ≤ 64 ∧
    (c.first < c.last ∨ (c.first = 0 ∧ c.last = 0)) ∧ ∀ x ∈ slots c, x ≠ none
  count_eq : v.count = (v.live.map (fun c => c.last - c.first)).sum
  ms_mod : v.maxsize % 64 = 0
  ms_lo : -2 ^ 63 ≤ v.maxsize
  ms_hi : v.maxsize < 2 ^ 63
  room : v.mid ≠ [] → v.count - v.tc.last < v.maxsize

/-- The invariant of the reachable states: the state has a good view. -/
def Inv {α : Type} (q : Queue α) : Prop := ∃ v : View α, q = v.toQueue ∧ Good v

/-- A chunk after `item` was stored at its `last` cursor. -/
def pushChunk {α : Type} (c : chunk α) (item : Option α) : chunk α :=
  { c with items := c.items.set c.last.toNat item, last := c.last + 1 }

/-- The view after an item was stored in the tail chunk. -/
def View.push {α : Type} (v : View α) (item : Option α) : View α :=
  { v with tc := pushChunk v.tc item, count := v.count + 1 }

/-- The view after a new, empty tail chunk was linked behind the old one. -/
def View.grow {α : Type} (v : View α) : View α :=
  { v with
    mid := v.mid ++ [{ v.tc with next := some (v.dead.length + v.mid.length + 1) }]
    tc := newChunk α }

/-- The view after the oldest item was taken out of a non-empty queue. -/
def View.pop {α : Type} (v : View α) : View α :=
  match v.mid with
  | [] =>
    if v.tc.first + 1 ≥ v.tc.last then
      { v with tc := { v.tc with first := 0, last := 0, next := none }, count := v.count - 1 }
    else { v with tc := { v.tc with first := v.tc.first + 1 }, count := v.count - 1 }
  | hc :: rest =>
    if hc.first + 1 ≥ hc.last then
      { v with
        dead := v.dead ++ [{ hc with first := hc.first + 1 }]
        mid := rest
        count := v.count - 1 }
    else { v with mid := { hc with first := hc.first + 1 } :: rest, count := v.count - 1 }

/-- The abstract contents a view describes. -/
def View.items {α : Type} (v : View α) : List (Option α) := (v.live.map slots).flatten

/-- How `Add` signals what `SafeAdd` returns: nothing for `nil`, and a panic carrying the
text of the error otherwise. -/
def addOutcome : Outcome (Option ErrLimitFIFO) → Outcome Unit
  | Outcome.ret none => Outcome.ret ()
  | Outcome.ret (some e) => Outcome.panic (Panic.explicit e.Error)
  | Outcome.panic p => Outcome.panic p

/-- The items handed to the insertion calls of a call sequence that returned successfully,
in call order; `rs` is what the calls gave back. -/
def accepted {α : Type} : List (Call α) → List (Ret α) → List (Option α)
  | Call.Add item :: cs, Ret.Add (Outcome.ret _) :: rs => item :: accepted cs rs
  | Call.SafeAdd item :: cs, Ret.SafeAdd (Outcome.ret none) :: rs => item :: accepted cs rs
  | _ :: cs, _ :: rs => accepted cs rs
  | _, _ => []

/-- The non-nil values the `Next` calls of a call sequence returned, in call order. -/
def delivered {α : Type} : List (Ret α) → List (Option α)
  | Ret.Next (Outcome.ret (some x)) :: rs => some x :: delivered rs
  | _ :: rs => delivered rs
  | [] => []

/-- The state reached from `NewLimitQueue(m)` by the call sequence `cs`. -/
def reach (α : Type) (m : Int) (cs : List (Call α)) : Queue α := (run (NewLimitQueue α m) cs).1

/-- What the calls of the sequence `cs`, made on `NewLimitQueue(m)`, gave back. -/
def answers (α : Type) (m : Int) (cs : List (Call α)) : List (Ret α) :=
  (run (NewLimitQueue α m) cs).2

/-- The call `c` is an insertion, checked or unchecked, of the non-nil item `x`. -/
def insertionOf {α : Type} (c : Call α) (x : α) : Prop := c = Call.Add (some x) ∨ c = Call.SafeAdd (some x)

/-- The result `r` is that of an insertion call that succeeded. -/
def succeeded {α : Type} (r : Ret α) : Prop :=
  r = Ret.Add (Outcome.ret ()) ∨ r = Ret.SafeAdd (Outcome.ret none)

/-- The view of the state `NewLimitQueue(m)`. -/
def View.new (α : Type) (m : Int) : View α :=
  { dead := [], mid := [], tc := newChunk α, maxsize := wrapInt (m * chunkSize), count := 0 }

/-- No chunk of the chain has lost an item yet: every `first` cursor is still `0`. -/
def Packed {α : Type} (v : View α) : Prop := ∀ c ∈ v.live, c.first = 0

/-- The calls `SafeAdd(n), SafeAdd(n+1), ..., SafeAdd(n+k-1)` on a queue of numbers. -/
def fill (n k : Nat) : List (Call Nat) :=
  (List.range' n k).map (fun i => Call.SafeAdd (some i))

/-- The `last` cursor of the chunk `tail` points to. -/
def tailLast {α : Type} (q : Queue α) : Option Int := (load q.mem q.tail).map chunk.last

/-- Address `b` is what the `next` pointer of the chunk at address `a` holds. -/
def linksTo {α : Type} (mem : List (chunk α)) (a b : Nat) : Prop :=
  ∃ c, mem[a]? = some c ∧ c.next = some b

/-- The result `r` of an `Add` call is a normal return or one of the two panics `Add` raises
itself. -/
def addDocumented (r : Outcome Unit) : Prop :=
  r = Outcome.ret () ∨ r = Outcome.panic (Panic.explicit "can not add nil item to fifo queue") ∨
    r = Outcome.panic (Panic.explicit "out of max chunk number")

/-- The zero value of the struct `Queue`, as `new(Queue)` or `Queue{}` give it: no chunk, both
chunk pointers nil, both integers `0`. -/
def zeroQueue (α : Type) : Queue α :=
  { mem := [], head := none, tail := none, maxsize := 0, count := 0 }

/-! ## Basic facts -/

theorem wrapInt_eq (x : Int) (h1 : -2 ^ 63 ≤ x) (h2 : x < 2 ^ 63) : wrapInt x = x := by
  unfold wrapInt; omega

theorem wrapInt_mul64 (m : Int) :
    wrapInt (m * chunkSize) % 64 = 0 ∧ -2 ^ 63 ≤ wrapInt (m * chunkSize) ∧
      wrapInt (m * chunkSize) < 2 ^ 63 := by
  unfold wrapInt chunkSize; omega

theorem getElem?_tail_addr {β : Type} (dead mid : List β) (tc : β) :
    (dead ++ (mid ++ [tc]))[dead.length + mid.length]? = some tc := by
  rw [List.getElem?_append_right (by omega), List.getElem?_append_right (by omega)]
  simp

theorem set_tail_addr {β : Type} (dead mid : List β) (tc c : β) :
    (dead ++ (mid ++ [tc])).set (dead.length + mid.length) c = dead ++ (mid ++ [c]) := by
  simp [List.set_append]

theorem getElem?_head_addr {β : Type} (dead rest : List β) (hc : β) :
    (dead ++ (hc :: rest))[dead.length]? = some hc := by
  rw [List.getElem?_append_right (by omega)]
  simp

theorem set_head_addr {β : Type} (dead rest : List β) (hc c : β) :
    (dead ++ (hc :: rest)).set dead.length c = dead ++ (c :: rest) := by
  simp [List.set_append]

theorem take_set_self {β : Type} (L : List β) (n : Nat) (x : β) :
    (L.set n x).take n = L.take n := by
  apply List.ext_getElem?
  intro i
  rw [List.getElem?_take, List.getElem?_take]
  split
  · rw [List.getElem?_set_ne (by omega)]
  · rfl

theorem take_drop_set {β : Type} (items : List β) (f l : Nat) (x : β)
    (hfl : f ≤ l) (hl : l < items.length) :
    ((items.set l x).drop f).take (l + 1 - f) = ((items.drop f).take (l - f)) ++ [x] := by
  have h1 : l + 1 - f = (l - f) + 1 := by omega
  have h2 : ¬ l < f := by omega
  have h3 : l - f < items.length - f := by omega
  rw [List.drop_set, if_neg h2, h1, List.take_succ, take_set_self]
  simp [List.getElem?_set, h3]

theorem take_drop_cons {β : Type} (items : List β) (d : β) (f l : Nat)
    (hfl : f < l) (hl : l ≤ items.length) :
    (items.drop f).take (l - f) = items.getD f d :: (items.drop (f + 1)).take (l - (f + 1)) := by
  have hf : f < items.length := by omega
  rw [List.drop_eq_getElem_cons hf]
  have : l - f = (l - (f + 1)) + 1 := by omega
  rw [this, List.take_succ_cons]
  simp [List.getD, hf]

variable {α : Type}

theorem slots_pushChunk (c : chunk α) (x : Option α) (h0 : 0 ≤ c.first) (h1 : c.first ≤ c.last)
    (h2 : c.last < 64) (hl : c.items.length = 64) :
    slots (pushChunk c x) = slots c ++ [x] := by
  unfold slots pushChunk
  have e1 : (c.last + 1 - c.first).toNat = c.last.toNat + 1 - c.first.toNat := by omega
  have e2 : (c.last - c.first).toNat = c.last.toNat - c.first.toNat := by omega
  simp only [e1, e2]
  exact take_drop_set c.items c.first.toNat c.last.toNat x (by omega) (by omega)

theorem slots_pop (c : chunk α) (h0 : 0 ≤ c.first) (h1 : c.first < c.last)
    (h2 : c.last ≤ 64) (hl : c.items.length = 64) :
    slots c = c.items.getD c.first.toNat none :: slots { c with first := c.first + 1 } := by
  unfold slots
  have e1 : (c.last - (c.first + 1)).toNat = c.last.toNat - (c.first.toNat + 1) := by omega
  have e2 : (c.last - c.first).toNat = c.last.toNat - c.first.toNat := by omega
  have e3 : (c.first + 1).toNat = c.first.toNat + 1 := by omega
  simp only [e1, e2, e3]
  exact take_drop_cons c.items none c.first.toNat c.last.toNat (by omega) (by omega)

theorem slots_length (c : chunk α) (h0 : 0 ≤ c.first) (h1 : c.first ≤ c.last)
    (h2 : c.last ≤ 64) (hl : c.items.length = 64) :
    ((slots c).length : Int) = c.last - c.first := by
  unfold slots
  simp [hl]
  omega

theorem storeItem_view (v : View α) (item : Option α) (h0 : 0 ≤ v.tc.last)
    (h1 : v.tc.last < 64) (hc1 : -2 ^ 63 ≤ v.count + 1) (hc2 : v.count + 1 < 2 ^ 63) :
    storeItem v.toQueue item = ((v.push item).toQueue, none) := by
  unfold storeItem View.toQueue load
  simp only [getElem?_tail_addr]
  rw [if_pos (by unfold chunkSize; exact ⟨h0, h1⟩)]
  rw [wrapInt_eq _ hc1 hc2, wrapInt_eq _ (by omega) (by omega), set_tail_addr]
  rfl

theorem growTail_view (v : View α) :
    growTail v.toQueue (v.dead.length + v.mid.length) v.tc = v.grow.toQueue := by
  unfold growTail View.toQueue View.grow
  simp [set_tail_addr]
  omega

theorem toQueue_load_tail (v : View α) :
    load v.toQueue.mem (some (v.dead.length + v.mid.length)) = some v.tc :=
  getElem?_tail_addr v.dead v.mid v.tc

theorem toQueue_tail (v : View α) : v.toQueue.tail = some (v.dead.length + v.mid.length) := rfl

theorem Good.tc_ok {v : View α} (g : Good v) :
    v.tc.items.length = 64 ∧ 0 ≤ v.tc.first ∧ v.tc.last ≤ 64 ∧
    (v.tc.first < v.tc.last ∨ (v.tc.first = 0 ∧ v.tc.last = 0)) ∧ ∀ x ∈ slots v.tc, x ≠ none :=
  g.ok v.tc (by simp [View.live])

theorem sum_span_nonneg (l : List (chunk α))
    (h : ∀ c ∈ l, c.first < c.last ∨ (c.first = 0 ∧ c.last = 0)) :
    0 ≤ (l.map (fun c => c.last - c.first)).sum := by
  apply List.sum_nonneg
  intro x hx
  simp only [List.mem_map] at hx
  obtain ⟨c, hc, rfl⟩ := hx
  have := h c hc
  omega

theorem Good.count_nonneg {v : View α} (g : Good v) : 0 ≤ v.count := by
  rw [g.count_eq]
  exact sum_span_nonneg _ (fun c hc => (g.ok c hc).2.2.2.1)

theorem Good.count_le {v : View α} (g : Good v) : v.count ≤ 2 ^ 63 - 65 + v.tc.last := by
  have ht := g.tc_ok
  by_cases hm : v.mid = []
  · have := g.count_eq
    simp [View.live, hm] at this
    omega
  · have := g.room hm
    have := g.ms_mod
    have := g.ms_hi
    omega

theorem SafeAdd_room {v : View α} (g : Good v) (h : v.tc.last < 64) (x : α) :
    SafeAdd v.toQueue (some x) = ((v.push (some x)).toQueue, Outcome.ret none) := by
  have ht := g.tc_ok
  have h1 := g.count_nonneg
  have h2 := g.count_le
  unfold SafeAdd
  simp only [toQueue_tail, toQueue_load_tail]
  rw [if_neg (by unfold chunkSize; omega)]
  rw [storeItem_view v (some x) (by omega) h (by omega) (by omega)]

theorem SafeAdd_grow {v : View α} (g : Good v) (h : v.tc.last = 64) (hc : v.count < v.maxsize)
    (x : α) :
    SafeAdd v.toQueue (some x) = ((v.grow.push (some x)).toQueue, Outcome.ret none) := by
  have h1 := g.count_nonneg
  have := g.ms_hi
  unfold SafeAdd
  simp only [toQueue_tail, toQueue_load_tail]
  rw [if_pos (by unfold chunkSize; omega), if_pos (by exact hc), growTail_view]
  rw [storeItem_view v.grow (some x) (by simp [View.grow, newChunk]) (by simp [View.grow, newChunk])
    (by simp only [View.grow]; omega) (by simp only [View.grow]; omega)]

theorem SafeAdd_full {v : View α} (h : 64 ≤ v.tc.last) (hc : v.maxsize ≤ v.count)
    (x : α) :
    SafeAdd v.toQueue (some x) =
      (v.toQueue, Outcome.ret (some { eid := ERR_OUT_OF_SIZE_LIMIT })) := by
  unfold SafeAdd
  simp only [toQueue_tail, toQueue_load_tail]
  rw [if_pos (by unfold chunkSize; omega), if_neg (by show ¬ v.count < v.maxsize; omega)]

theorem Next_zero (q : Queue α) (h : q.count = 0) : Next q = (q, Outcome.ret none) := by
  unfold Next
  rw [if_pos h]

theorem Next_take (q : Queue α) (h : Nat) (hc : chunk α) (hh : q.head = some h)
    (hl : q.mem[h]? = some hc) (h0 : 0 ≤ hc.first) (h1 : hc.first < hc.last)
    (h2 : hc.last ≤ 64) (hc1 : 0 < q.count) (hc2 : q.count < 2 ^ 63) :
    Next q =
      (if hc.first + 1 ≥ hc.last then
        if q.count - 1 = 0 then
          { q with
            mem := q.mem.set h { hc with first := 0, last := 0, next := none }
            count := q.count - 1 }
        else
          { q with
            mem := q.mem.set h { hc with first := hc.first + 1 }
            head := hc.next
            count := q.count - 1 }
      else { q with mem := q.mem.set h { hc with first := hc.first + 1 }, count := q.count - 1 },
      Outcome.ret (hc.items.getD hc.first.toNat none)) := by
  unfold Next
  rw [if_neg (by omega)]
  simp only [hh, load, hl]
  rw [if_neg (by omega), if_pos (by unfold chunkSize; omega)]
  simp only [wrapInt_eq (hc.first + 1) (by omega) (by omega),
    wrapInt_eq (q.count - 1) (by omega) (by omega)]
  split_ifs <;> rfl


theorem Next_pop {v : View α} (g : Good v) (h : v.count ≠ 0) :
    ∃ item, Next v.toQueue = (v.pop.toQueue, Outcome.ret item) ∧
      v.items = item :: v.pop.items ∧ item ≠ none := by
  have hn := g.count_nonneg
  have hle := g.count_le
  have ht := g.tc_ok
  have hce := g.count_eq
  obtain ⟨dead, mid, tc, ms, cnt⟩ := v
  cases mid with
  | nil =>
    simp only [View.live, List.nil_append, List.map_cons, List.map_nil, List.sum_cons,
      List.sum_nil, add_zero] at hce
    simp only at h hn hle ht
    have hpos : tc.first < tc.last := by omega
    have hsl := slots_pop tc ht.2.1 hpos ht.2.2.1 ht.1
    refine ⟨tc.items.getD tc.first.toNat none, ?_, ?_, ?_⟩
    · rw [Next_take _ dead.length tc rfl (getElem?_head_addr dead [] tc) ht.2.1 hpos ht.2.2.1
        (by show 0 < cnt; omega) (by show cnt < 2 ^ 63; omega)]
      simp only [View.pop, View.toQueue, List.nil_append, set_head_addr]
      by_cases hx : tc.first + 1 ≥ tc.last
      · rw [if_pos hx, if_pos hx, if_pos (by omega)]
        rfl
      · rw [if_neg hx, if_neg hx]
        rfl
    · simp only [View.items, View.live, View.pop, List.nil_append]
      by_cases hx : tc.first + 1 ≥ tc.last
      · rw [if_pos hx]
        have hz : slots { tc with first := tc.first + 1 } = [] := by
          unfold slots
          have : (tc.last - (tc.first + 1)).toNat = 0 := by omega
          simp [this]
        have hr : slots { tc with first := 0, last := 0, next := none } = [] := by
          simp [slots]
        simp [hsl, hz, hr]
      · rw [if_neg hx]
        simp [hsl]
    · exact ht.2.2.2.2 _ (by rw [hsl]; simp)
  | cons hc rest =>
    have hok := g.ok hc (by simp [View.live])
    have hfull := g.full hc (by simp)
    have hroom := g.room (by simp)
    have hpos : hc.first < hc.last := by omega
    have hsl := slots_pop hc hok.2.1 hpos hok.2.2.1 hok.1
    have hfr := g.fresh tc (by simp [View.live])
    simp only [View.live, List.cons_append, List.map_cons, List.sum_cons, List.map_append,
      List.sum_append, List.map_nil, List.sum_nil, add_zero] at hce
    have hrest := sum_span_nonneg rest (fun c hcm => (g.ok c (by
      simp only [View.live, List.cons_append, List.mem_cons, List.mem_append]
      exact Or.inr (Or.inl hcm))).2.2.2.1)
    simp only at h hn hle ht hroom hfr
    refine ⟨hc.items.getD hc.first.toNat none, ?_, ?_, ?_⟩
    · rw [Next_take _ dead.length hc rfl (getElem?_head_addr dead _ hc) hok.2.1 hpos hok.2.2.1
        (by show 0 < cnt; omega) (by show cnt < 2 ^ 63; omega)]
      simp only [View.pop, View.toQueue, List.cons_append, set_head_addr]
      by_cases hx : hc.first + 1 ≥ hc.last
      · rw [if_pos hx, if_pos hx, if_neg (by omega)]
        have hnx := g.linked.1
        simp only at hnx
        simp [hnx]
        omega
      · rw [if_neg hx, if_neg hx]
        rfl
    · simp only [View.items, View.live, View.pop]
      by_cases hx : hc.first + 1 ≥ hc.last
      · rw [if_pos hx]
        have hz : slots { hc with first := hc.first + 1 } = [] := by
          unfold slots
          have : (hc.last - (hc.first + 1)).toNat = 0 := by omega
          simp [this]
        simp [hsl, hz]
      · rw [if_neg hx]
        simp [hsl]
    · exact hok.2.2.2.2 _ (by rw [hsl]; simp)

theorem Linked_append (a : Nat) (l : List (chunk α)) (c : chunk α) :
    Linked a (l ++ [c]) ↔ Linked a l ∧ c.next = some (a + l.length + 1) := by
  induction l generalizing a with
  | nil => simp [Linked]
  | cons d l ih =>
    show (d.next = some (a + 1) ∧ Linked (a + 1) (l ++ [c])) ↔
      ((d.next = some (a + 1) ∧ Linked (a + 1) l) ∧ c.next = some (a + (l.length + 1) + 1))
    rw [ih]
    constructor
    · rintro ⟨h1, h2, h3⟩
      exact ⟨⟨h1, h2⟩, by rw [h3]; congr 1; omega⟩
    · rintro ⟨⟨h1, h2⟩, h3⟩
      exact ⟨h1, h2, by rw [h3]; congr 1; omega⟩

theorem push_items {v : View α} (g : Good v) (h : v.tc.last < 64) (x : Option α) :
    (v.push x).items = v.items ++ [x] := by
  have ht := g.tc_ok
  simp only [View.items, View.live, View.push, List.map_append, List.map_cons, List.map_nil,
    List.flatten_append, List.flatten_cons, List.flatten_nil, List.append_nil]
  rw [slots_pushChunk v.tc x ht.2.1 (by omega) h ht.1, List.append_assoc]

theorem slots_newChunk_push (x : Option α) : slots (pushChunk (newChunk α) x) = [x] := by
  simp [slots, pushChunk, newChunk, List.replicate]

theorem grow_push_items {v : View α} (x : Option α) :
    (v.grow.push x).items = v.items ++ [x] := by
  simp only [View.items, View.live, View.push, View.grow, List.map_append, List.map_cons,
    List.map_nil, List.flatten_append, List.flatten_cons, List.flatten_nil, List.append_nil,
    slots_newChunk_push]
  rfl

theorem Good_push {v : View α} (g : Good v) (h : v.tc.last < 64) (x : α) :
    Good (v.push (some x)) := by
  have ht := g.tc_ok
  have hsl := slots_pushChunk v.tc (some x) ht.2.1 (by omega) h ht.1
  refine ⟨g.linked, g.tail_next, g.full, ?_, ?_, ?_, g.ms_mod, g.ms_lo, g.ms_hi, ?_⟩
  · intro c hc
    have hf := g.fresh
    cases hm : v.mid with
    | nil => simp [View.live, View.push, hm] at hc
    | cons d rest =>
      simp only [View.live, View.push, hm, List.cons_append, List.tail_cons,
        List.mem_append, List.mem_singleton] at hc hf
      rcases hc with hc | rfl
      · exact hf c (Or.inl hc)
      · have := hf v.tc (Or.inr rfl)
        simp only [pushChunk]
        omega
  · intro c hc
    simp only [View.live, View.push, List.mem_append, List.mem_singleton] at hc
    rcases hc with hc | rfl
    · exact g.ok c (by simp [View.live, hc])
    · refine ⟨by simp [pushChunk, ht.1], ht.2.1, by simp only [pushChunk]; omega,
        by simp only [pushChunk]; omega, ?_⟩
      intro y hy
      rw [hsl] at hy
      simp only [List.mem_append, List.mem_singleton] at hy
      rcases hy with hy | rfl
      · exact ht.2.2.2.2 y hy
      · simp
  · have := g.count_eq
    simp only [View.live, View.push, pushChunk, List.map_append, List.sum_append, List.map_cons,
      List.map_nil, List.sum_cons, List.sum_nil] at this ⊢
    omega
  · intro hm
    have := g.room hm
    simp only [View.push, pushChunk]
    omega

theorem Good_grow_push {v : View α} (g : Good v) (h : v.tc.last = 64)
    (hc : v.count < v.maxsize) (x : α) : Good (v.grow.push (some x)) := by
  have ht := g.tc_ok
  refine ⟨?_, rfl, ?_, ?_, ?_, ?_, g.ms_mod, g.ms_lo, g.ms_hi, ?_⟩
  · show Linked v.dead.length (v.mid ++ [{ v.tc with next := some (v.dead.length + v.mid.length + 1) }])
    rw [Linked_append]
    exact ⟨g.linked, rfl⟩
  · intro c hcm
    simp only [View.push, View.grow, List.mem_append, List.mem_singleton] at hcm
    rcases hcm with hcm | rfl
    · exact g.full c hcm
    · exact h
  · intro c hcm
    have hf := g.fresh
    cases hm : v.mid with
    | nil =>
      simp only [View.live, View.push, View.grow, hm, List.nil_append, List.cons_append,
        List.tail_cons, List.mem_singleton] at hcm
      subst hcm
      simp [pushChunk, newChunk]
    | cons d rest =>
      simp only [View.live, View.push, View.grow, hm, List.cons_append, List.tail_cons,
        List.mem_append, List.mem_singleton] at hcm hf
      rcases hcm with (hcm | rfl) | rfl
      · exact hf c (Or.inl hcm)
      · exact hf v.tc (Or.inr rfl)
      · simp [pushChunk, newChunk]
  · intro c hcm
    simp only [View.live, View.push, View.grow, List.mem_append, List.mem_singleton] at hcm
    rcases hcm with (hcm | rfl) | rfl
    · exact g.ok c (by simp [View.live, hcm])
    · exact ⟨ht.1, ht.2.1, ht.2.2.1, ht.2.2.2.1, ht.2.2.2.2⟩
    · refine ⟨by simp [pushChunk, newChunk], by simp [pushChunk, newChunk],
        by simp [pushChunk, newChunk], by simp [pushChunk, newChunk], ?_⟩
      intro y hy
      rw [slots_newChunk_push] at hy
      simp only [List.mem_singleton] at hy
      subst hy
      simp
  · have := g.count_eq
    simp only [View.live, View.push, View.grow, pushChunk, newChunk, List.map_append,
      List.sum_append, List.map_cons, List.map_nil, List.sum_cons, List.sum_nil] at this ⊢
    omega
  · intro _
    simp only [View.push, View.grow, pushChunk, newChunk]
    omega

theorem slots_advance_subset (c : chunk α) (h0 : 0 ≤ c.first) (h1 : c.first < c.last)
    (h2 : c.last ≤ 64) (hl : c.items.length = 64) (y : Option α)
    (hy : y ∈ slots { c with first := c.first + 1 }) : y ∈ slots c := by
  rw [slots_pop c h0 h1 h2 hl]
  exact List.mem_cons_of_mem _ hy

theorem Good_pop {v : View α} (g : Good v) (h : v.count ≠ 0) : Good v.pop := by
  have hn := g.count_nonneg
  have ht := g.tc_ok
  have hce := g.count_eq
  have hlk := g.linked
  have hfu := g.full
  have hfr := g.fresh
  have hok := g.ok
  have hrm := g.room
  have hms := g.ms_mod
  have hlo := g.ms_lo
  have hhi := g.ms_hi
  have htn := g.tail_next
  obtain ⟨dead, mid, tc, ms, cnt⟩ := v
  cases mid with
  | nil =>
    simp only [View.live, List.nil_append, List.map_cons, List.map_nil, List.sum_cons,
      List.sum_nil, add_zero] at hce
    simp only at h hn ht
    have hpos : tc.first < tc.last := by omega
    simp only [View.pop]
    by_cases hx : tc.first + 1 ≥ tc.last
    · rw [if_pos hx]
      refine ⟨trivial, rfl, by simp, by simp [View.live], ?_, ?_, hms, hlo, hhi, by simp⟩
      · intro c hc
        simp only [View.live, List.nil_append, List.mem_singleton] at hc
        subst hc
        exact ⟨ht.1, le_refl _, by norm_num, Or.inr ⟨rfl, rfl⟩, by simp [slots]⟩
      · simp only [View.live, List.nil_append, List.map_cons, List.map_nil, List.sum_cons,
          List.sum_nil]
        omega
    · rw [if_neg hx]
      refine ⟨trivial, htn, by simp, by simp [View.live], ?_, ?_, hms, hlo, hhi, by simp⟩
      · intro c hc
        simp only [View.live, List.nil_append, List.mem_singleton] at hc
        subst hc
        refine ⟨ht.1, by simp only; omega, ht.2.2.1, Or.inl (by simp only; omega), ?_⟩
        intro y hy
        exact ht.2.2.2.2 y (slots_advance_subset tc ht.2.1 hpos ht.2.2.1 ht.1 y hy)
      · simp only [View.live, List.nil_append, List.map_cons, List.map_nil, List.sum_cons,
          List.sum_nil]
        omega
  | cons hc rest =>
    have hok1 := hok hc (by simp [View.live])
    have hfull := hfu hc (by simp)
    have hroom := hrm (by simp)
    have hpos : hc.first < hc.last := by omega
    have hfrt := hfr tc (by simp [View.live])
    simp only [View.live, List.cons_append, List.map_cons, List.sum_cons, List.map_append,
      List.sum_append, List.map_nil, List.sum_nil, add_zero] at hce
    simp only at h hn ht hroom hfrt
    simp only [View.pop]
    by_cases hx : hc.first + 1 ≥ hc.last
    · rw [if_pos hx]
      refine ⟨?_, htn, ?_, ?_, ?_, ?_, hms, hlo, hhi, ?_⟩
      · have := hlk.2
        simpa using this
      · intro c hcm
        exact hfu c (List.mem_cons_of_mem _ hcm)
      · intro c hcm
        exact hfr c (by
          simp only [View.live, List.cons_append, List.tail_cons]
          exact List.mem_of_mem_tail hcm)
      · intro c hcm
        exact hok c (by
          simp only [View.live, List.cons_append]
          exact List.mem_cons_of_mem _ hcm)
      · simp only [View.live, List.map_append, List.sum_append, List.map_cons, List.map_nil,
          List.sum_cons, List.sum_nil, add_zero]
        omega
      · intro _
        simp only
        omega
    · rw [if_neg hx]
      refine ⟨⟨hlk.1, hlk.2⟩, htn, ?_, ?_, ?_, ?_, hms, hlo, hhi, ?_⟩
      · intro c hcm
        simp only [List.mem_cons] at hcm
        rcases hcm with rfl | hcm
        · exact hfull
        · exact hfu c (List.mem_cons_of_mem _ hcm)
      · intro c hcm
        exact hfr c (by simpa [View.live] using hcm)
      · intro c hcm
        simp only [View.live, List.cons_append, List.mem_cons] at hcm
        rcases hcm with rfl | hcm
        · refine ⟨hok1.1, by simp only; omega, hok1.2.2.1, Or.inl (by simp only; omega), ?_⟩
          intro y hy
          exact hok1.2.2.2.2 y (slots_advance_subset hc hok1.2.1 hpos hok1.2.2.1 hok1.1 y hy)
        · exact hok c (by
            simp only [View.live, List.cons_append]
            exact List.mem_cons_of_mem _ hcm)
      · simp only [View.live, List.cons_append, List.map_append, List.sum_append, List.map_cons,
          List.map_nil, List.sum_cons, List.sum_nil, add_zero]
        omega
      · intro _
        simp only
        omega

theorem Add_eq_SafeAdd (q : Queue α) (item : Option α) :
    Add q item = ((SafeAdd q item).1, addOutcome (SafeAdd q item).2) := by
  unfold Add SafeAdd
  cases item with
  | none => rfl
  | some x =>
    simp only
    split
    · split
      · split
        · split <;> simp_all [addOutcome]
        · rfl
      · split <;> simp_all [addOutcome]
    · rfl

theorem chainFrom_view (tc : chunk α) :
    ∀ (mid dead : List (chunk α)) (fuel : Nat), Linked dead.length mid → mid.length < fuel →
      chainFrom (dead ++ (mid ++ [tc])) (some (dead.length + mid.length)) fuel
        (some dead.length) = mid ++ [tc] := by
  intro mid
  induction mid with
  | nil =>
    intro dead fuel _ hf
    obtain ⟨k, rfl⟩ : ∃ k, fuel = k + 1 := ⟨fuel - 1, by simp at hf; omega⟩
    simp only [chainFrom, List.nil_append, getElem?_head_addr, List.length_nil, Nat.add_zero,
      if_true]
  | cons c cs ih =>
    intro dead fuel hl hf
    obtain ⟨k, rfl⟩ : ∃ k, fuel = k + 1 := ⟨fuel - 1, by simp at hf; omega⟩
    have hne : ¬ (some (dead.length + (c :: cs).length) = some dead.length) := by
      simp
    simp only [chainFrom, List.cons_append, getElem?_head_addr, if_neg hne, hl.1]
    have := ih (dead ++ [c]) k (by simpa using hl.2) (by simp at hf; omega)
    simp only [List.length_append, List.length_singleton, List.append_assoc,
      List.singleton_append] at this
    have e : dead.length + (c :: cs).length = dead.length + 1 + cs.length := by
      simp; omega
    rw [e, this]

theorem chain_view {v : View α} (g : Good v) : chain v.toQueue = v.live := by
  unfold chain View.toQueue View.live
  exact chainFrom_view v.tc v.mid v.dead _ g.linked (by simp; omega)

theorem contents_view {v : View α} (g : Good v) : contents v.toQueue = v.items := by
  unfold contents View.items
  rw [chain_view g]

theorem sum_span_eq_length (l : List (chunk α))
    (h : ∀ c ∈ l, c.items.length = 64 ∧ 0 ≤ c.first ∧ c.last ≤ 64 ∧
      (c.first < c.last ∨ (c.first = 0 ∧ c.last = 0)) ∧ ∀ x ∈ slots c, x ≠ none) :
    (l.map (fun c => c.last - c.first)).sum = ((l.map slots).flatten.length : Int) := by
  induction l with
  | nil => simp
  | cons c cs ih =>
    have hc := h c (by simp)
    have := slots_length c hc.2.1 (by omega) hc.2.2.1 hc.1
    simp only [List.map_cons, List.sum_cons, List.flatten_cons, List.length_append,
      Nat.cast_add, this]
    rw [ih (fun d hd => h d (List.mem_cons_of_mem _ hd))]

theorem Good.count_items {v : View α} (g : Good v) : v.count = (v.items.length : Int) := by
  rw [g.count_eq, View.items]
  exact sum_span_eq_length _ g.ok

theorem Good.items_ne_none {v : View α} (g : Good v) : ∀ x ∈ v.items, x ≠ none := by
  intro x hx
  simp only [View.items, List.mem_flatten, List.mem_map] at hx
  obtain ⟨l, ⟨c, hc, rfl⟩, hxl⟩ := hx
  exact (g.ok c hc).2.2.2.2 x hxl

theorem Good_new (m : Int) : Good (View.new α m) := by
  have := wrapInt_mul64 m
  refine ⟨trivial, rfl, by simp [View.new], by simp [View.live, View.new], ?_,
    by simp [View.live, View.new, newChunk], this.1, this.2.1, this.2.2, by simp [View.new]⟩
  intro c hc
  simp only [View.live, View.new, List.nil_append, List.mem_singleton] at hc
  subst hc
  simp [newChunk, slots]

theorem Packed_new (m : Int) : Packed (View.new α m) := by
  intro c hc
  simp only [View.live, View.new, List.nil_append, List.mem_singleton] at hc
  subst hc
  rfl

theorem Inv_new (m : Int) : Inv (NewLimitQueue α m) :=
  ⟨View.new α m, rfl, Good_new m⟩

theorem Inv.count_eq {q : Queue α} (hq : Inv q) : q.count = ((contents q).length : Int) := by
  obtain ⟨v, rfl, g⟩ := hq
  rw [contents_view g]
  exact g.count_items

theorem Inv.contents_ne_none {q : Queue α} (hq : Inv q) : ∀ x ∈ contents q, x ≠ none := by
  obtain ⟨v, rfl, g⟩ := hq
  rw [contents_view g]
  exact g.items_ne_none

theorem SafeAdd_inv {q : Queue α} (hq : Inv q) (x : α) :
    (Inv (SafeAdd q (some x)).1 ∧ (SafeAdd q (some x)).2 = Outcome.ret none ∧
      contents (SafeAdd q (some x)).1 = contents q ++ [some x] ∧
      (SafeAdd q (some x)).1.maxsize = q.maxsize) ∨
    SafeAdd q (some x) = (q, Outcome.ret (some { eid := ERR_OUT_OF_SIZE_LIMIT })) := by
  obtain ⟨v, rfl, g⟩ := hq
  have ht := g.tc_ok
  by_cases h : v.tc.last < 64
  · left
    rw [SafeAdd_room g h x]
    have g1 := Good_push g h x
    exact ⟨⟨_, rfl, g1⟩, rfl, by rw [contents_view g1, contents_view g, push_items g h], rfl⟩
  · have h64 : v.tc.last = 64 := by omega
    by_cases hc : v.count < v.maxsize
    · left
      rw [SafeAdd_grow g h64 hc x]
      have g1 := Good_grow_push g h64 hc x
      exact ⟨⟨_, rfl, g1⟩, rfl, by rw [contents_view g1, contents_view g, grow_push_items], rfl⟩
    · right
      exact SafeAdd_full (by omega) (by omega) x

theorem SafeAdd_nil (q : Queue α) :
    SafeAdd q none = (q, Outcome.ret (some { eid := ERR_ADD_NIL })) := rfl

theorem Next_inv {q : Queue α} (hq : Inv q) :
    (contents q = [] ∧ Next q = (q, Outcome.ret none)) ∨
    (∃ y, (Next q).2 = Outcome.ret (some y) ∧ contents q = some y :: contents (Next q).1 ∧
      Inv (Next q).1 ∧ (Next q).1.maxsize = q.maxsize) := by
  have hcnt := hq.count_eq
  obtain ⟨v, rfl, g⟩ := hq
  by_cases h : v.count = 0
  · left
    refine ⟨?_, Next_zero _ h⟩
    have : v.toQueue.count = 0 := h
    rw [this] at hcnt
    exact List.length_eq_zero.mp (by exact_mod_cast hcnt.symm)
  · right
    obtain ⟨item, h1, h2, h3⟩ := Next_pop g h
    have g1 := Good_pop g h
    obtain ⟨y, rfl⟩ := Option.ne_none_iff_exists'.mp h3
    refine ⟨y, by rw [h1], ?_, by rw [h1]; exact ⟨_, rfl, g1⟩, ?_⟩
    · rw [h1, contents_view g, contents_view g1, h2]
    · rw [h1]
      simp only [View.toQueue, View.pop]
      split <;> split <;> rfl

theorem accepted_cons (c : Call α) (r : Ret α) (cs : List (Call α)) (rs : List (Ret α)) :
    accepted (c :: cs) (r :: rs) = accepted [c] [r] ++ accepted cs rs := by
  cases c <;> cases r <;>
    first
    | rfl
    | (rename_i o; cases o <;> first | rfl | (rename_i e; cases e <;> rfl))

theorem delivered_cons (r : Ret α) (rs : List (Ret α)) :
    delivered (r :: rs) = delivered [r] ++ delivered rs := by
  cases r <;>
    first
    | rfl
    | (rename_i o; cases o <;> first | rfl | (rename_i e; cases e <;> rfl))

theorem step_inv {q : Queue α} (hq : Inv q) (c : Call α) :
    Inv (step q c).1 ∧ (step q c).1.maxsize = q.maxsize ∧
      delivered [(step q c).2] ++ contents (step q c).1 =
        contents q ++ accepted [c] [(step q c).2] := by
  cases c with
  | Add item =>
    simp only [step, Add_eq_SafeAdd]
    cases item with
    | none => simp [SafeAdd_nil, addOutcome, accepted, delivered, hq]
    | some x =>
      rcases SafeAdd_inv hq x with ⟨h1, h2, h3, h4⟩ | h
      · simp [h1, h2, h3, h4, addOutcome, accepted, delivered]
      · simp [h, addOutcome, accepted, delivered, hq]
  | SafeAdd item =>
    simp only [step]
    cases item with
    | none => simp [SafeAdd_nil, accepted, delivered, hq]
    | some x =>
      rcases SafeAdd_inv hq x with ⟨h1, h2, h3, h4⟩ | h
      · simp [h1, h2, h3, h4, accepted, delivered]
      · simp [h, accepted, delivered, hq]
  | Next =>
    simp only [step]
    rcases Next_inv hq with ⟨h1, h2⟩ | ⟨y, h1, h2, h3, h4⟩
    · simp [h2, accepted, delivered, hq]
    · simp [h1, h2, h3, h4, accepted, delivered]
  | Len => simp [step, Len, accepted, delivered, hq]

theorem run_inv (cs : List (Call α)) :
    ∀ {q : Queue α}, Inv q →
      Inv (run q cs).1 ∧ (run q cs).1.maxsize = q.maxsize ∧
        delivered (run q cs).2 ++ contents (run q cs).1 =
          contents q ++ accepted cs (run q cs).2 := by
  induction cs with
  | nil =>
    intro q hq
    simp [run, accepted, delivered, hq]
  | cons c cs ih =>
    intro q hq
    obtain ⟨h1, h2, h3⟩ := step_inv hq c
    obtain ⟨i1, i2, i3⟩ := ih h1
    refine ⟨i1, by simp only [run]; rw [i2, h2], ?_⟩
    simp only [run]
    rw [accepted_cons, delivered_cons, List.append_assoc, i3, ← List.append_assoc, h3,
      List.append_assoc]

theorem run_length (cs : List (Call α)) : ∀ (q : Queue α), (run q cs).2.length = cs.length := by
  induction cs with
  | nil => intro q; rfl
  | cons c cs ih => intro q; simp [run, ih]

theorem run_append (cs ds : List (Call α)) : ∀ (q : Queue α),
    run q (cs ++ ds) = ((run (run q cs).1 ds).1, (run q cs).2 ++ (run (run q cs).1 ds).2) := by
  induction cs with
  | nil => intro q; simp [run]
  | cons c cs ih => intro q; simp [run, ih]

theorem contents_new (m : Int) : contents (NewLimitQueue α m) = [] := by
  simp [contents, chain, NewLimitQueue, chainFrom, slots, newChunk]

theorem reach_inv (m : Int) (cs : List (Call α)) : Inv (reach α m cs) :=
  (run_inv cs (Inv_new m)).1

theorem run_insertions (cs : List (Call α)) (xs : List α)
    (h : List.Forall₂ insertionOf cs xs) :
    ∀ q : Queue α, (∀ r ∈ (run q cs).2, succeeded r) →
      accepted cs (run q cs).2 = xs.map some ∧ delivered (run q cs).2 = [] := by
  induction h with
  | nil => intro q _; exact ⟨rfl, rfl⟩
  | @cons c x cs xs hc _ ih =>
    intro q hr
    have hr1 := hr (step q c).2 (by simp [run])
    have hr2 := ih (step q c).1 (fun r hr' => hr r (by simp [run, hr']))
    rw [show run q (c :: cs) = ((run (step q c).1 cs).1, (step q c).2 :: (run (step q c).1 cs).2)
      from rfl]
    simp only
    rw [accepted_cons, delivered_cons, hr2.1, hr2.2]
    rcases hc with rfl | rfl
    · rcases hr1 with h1 | h1
      · simp only [step] at h1 ⊢
        rw [h1]
        exact ⟨rfl, rfl⟩
      · simp [step] at h1
    · rcases hr1 with h1 | h1
      · simp [step] at h1
      · simp only [step] at h1 ⊢
        rw [h1]
        exact ⟨rfl, rfl⟩

theorem run_nexts (l : List (Option α)) :
    ∀ q : Queue α, Inv q → contents q = l →
      (run q (List.replicate l.length Call.Next)).2 = l.map (fun o => Ret.Next (Outcome.ret o)) ∧
      contents (run q (List.replicate l.length Call.Next)).1 = [] := by
  induction l with
  | nil => intro q _ hc; exact ⟨rfl, hc⟩
  | cons o l ih =>
    intro q hq hc
    rcases Next_inv hq with ⟨h1, _⟩ | ⟨y, h1, h2, h3, _⟩
    · rw [h1] at hc; cases hc
    · rw [h2] at hc
      injection hc with e1 e2
      subst e1
      have := ih (Next q).1 h3 e2
      simp only [List.length_cons, List.replicate_succ, run, step, List.map_cons, h1]
      exact ⟨by rw [this.1], this.2⟩

theorem Packed.count {v : View α} (g : Good v) (p : Packed v) :
    v.count = 64 * (v.mid.length : Int) + v.tc.last := by
  have hs : ∀ l : List (chunk α), (∀ c ∈ l, c.last = 64 ∧ c.first = 0) →
      (l.map (fun c => c.last - c.first)).sum = 64 * (l.length : Int) := by
    intro l
    induction l with
    | nil => intro _; simp
    | cons c cs ih =>
      intro h
      have hc := h c (by simp)
      have := ih (fun d hd => h d (List.mem_cons_of_mem _ hd))
      simp only [List.map_cons, List.sum_cons, List.length_cons, Nat.cast_add, Nat.cast_one]
      omega
  have h1 := hs v.mid (fun c hc => ⟨g.full c hc, p c (by simp [View.live, hc])⟩)
  have h2 := p v.tc (by simp [View.live])
  have h3 := g.count_eq
  simp only [View.live, List.map_append, List.sum_append, List.map_cons, List.map_nil,
    List.sum_cons, List.sum_nil] at h3
  omega

theorem Packed_push {v : View α} (p : Packed v) (x : Option α) : Packed (v.push x) := by
  intro c hc
  simp only [View.live, View.push, List.mem_append, List.mem_singleton] at hc
  rcases hc with hc | rfl
  · exact p c (by simp [View.live, hc])
  · exact p v.tc (by simp [View.live])

theorem Packed_grow_push {v : View α} (p : Packed v) (x : Option α) :
    Packed (v.grow.push x) := by
  intro c hc
  simp only [View.live, View.push, View.grow, List.mem_append, List.mem_singleton] at hc
  rcases hc with (hc | rfl) | rfl
  · exact p c (by simp [View.live, hc])
  · exact p v.tc (by simp [View.live])
  · rfl

theorem SafeAdd_packed_room {v : View α} (g : Good v) (p : Packed v)
    (h : v.count < v.maxsize) (x : α) :
    ∃ w : View α, SafeAdd v.toQueue (some x) = (w.toQueue, Outcome.ret none) ∧ Good w ∧
      Packed w ∧ w.count = v.count + 1 ∧ w.maxsize = v.maxsize := by
  have ht := g.tc_ok
  by_cases hl : v.tc.last < 64
  · exact ⟨_, SafeAdd_room g hl x, Good_push g hl x, Packed_push p _, rfl, rfl⟩
  · have h64 : v.tc.last = 64 := by omega
    exact ⟨_, SafeAdd_grow g h64 h x, Good_grow_push g h64 h x, Packed_grow_push p _, rfl, rfl⟩

theorem SafeAdd_packed_full {v : View α} (g : Good v) (p : Packed v)
    (h : v.count = v.maxsize) (hm : 64 ≤ v.maxsize) (x : α) :
    SafeAdd v.toQueue (some x) =
      (v.toQueue, Outcome.ret (some { eid := ERR_OUT_OF_SIZE_LIMIT })) := by
  have ht := g.tc_ok
  have hc := p.count g
  have hmod := g.ms_mod
  apply SafeAdd_full _ (by omega)
  by_cases hmid : v.mid = []
  · simp only [hmid, List.length_nil, Nat.cast_zero, mul_zero, zero_add] at hc
    omega
  · have := g.fresh v.tc (by
      cases hm2 : v.mid with
      | nil => exact absurd hm2 hmid
      | cons d rest => simp [View.live, hm2])
    omega

theorem run_packed (xs : List α) :
    ∀ v : View α, Good v → Packed v → v.count + (xs.length : Int) ≤ v.maxsize →
      ∃ w : View α, run v.toQueue (xs.map (fun x => Call.SafeAdd (some x))) =
          (w.toQueue, xs.map (fun _ => Ret.SafeAdd (Outcome.ret none))) ∧
        Good w ∧ Packed w ∧ w.count = v.count + (xs.length : Int) ∧ w.maxsize = v.maxsize := by
  induction xs with
  | nil =>
    intro v g p _
    exact ⟨v, rfl, g, p, by simp, rfl⟩
  | cons x xs ih =>
    intro v g p h
    simp only [List.length_cons, Nat.cast_add, Nat.cast_one] at h
    obtain ⟨w, h1, g1, p1, c1, m1⟩ := SafeAdd_packed_room g p (by omega) x
    obtain ⟨u, h2, g2, p2, c2, m2⟩ := ih w g1 p1 (by omega)
    refine ⟨u, ?_, g2, p2, ?_, by rw [m2, m1]⟩
    · simp only [List.map_cons, run, step, h1, h2]
    · simp only [List.length_cons, Nat.cast_add, Nat.cast_one]
      omega

/-- C1. FIFO order: on a queue freshly built by `NewLimitQueue(m)` (for every `m`, so in
particular every `m ≥ 1`), if the calls `cs` are insertions, by `Add` or `SafeAdd`, of the
non-nil items `xs = [i1, ..., in]` and every one of them succeeds, then the `n` following
`Next()` calls return exactly `i1, ..., in`, in that order. -/
theorem fifo_order (m : Int) (cs : List (Call α)) (xs : List α)
    (hcalls : List.Forall₂ insertionOf cs xs)
    (hok : ∀ r ∈ answers α m cs, succeeded r) :
    (run (reach α m cs) (List.replicate xs.length Call.Next)).2 =
      xs.map (fun x => Ret.Next (Outcome.ret (some x))) := by
  have hinv := run_inv cs (Inv_new (α := α) m)
  have hins := run_insertions cs xs hcalls (NewLimitQueue α m) hok
  have hcont : contents (reach α m cs) = xs.map some := by
    have := hinv.2.2
    rw [hins.1, hins.2, contents_new] at this
    simpa [reach] using this
  have := (run_nexts (xs.map some) (reach α m cs) (reach_inv m cs) hcont).1
  simpa using this

/-- C2. The queue refines a list under arbitrary interleaving: in every state reachable from
`NewLimitQueue(m)` by `Add`/`SafeAdd`/`Next`/`Len` calls, with the abstract contents being the
occupied regions `[first, last)` of the chunks from head to tail concatenated, a successful
`SafeAdd` or `Add` of `x` appends `x` at the end of the contents, `Next` on empty contents
returns nil and changes nothing, `Next` on non-empty contents returns their first element
(which is not nil) and removes it, `Len` leaves them alone; and the non-nil values the `Next`
calls returned are, in order, an initial segment of the successfully inserted items. -/
theorem refines_list (m : Int) (cs : List (Call α)) :
    (∀ x : α, (SafeAdd (reach α m cs) (some x)).2 = Outcome.ret none →
      contents (SafeAdd (reach α m cs) (some x)).1 = contents (reach α m cs) ++ [some x]) ∧
    (∀ x : α, (Add (reach α m cs) (some x)).2 = Outcome.ret () →
      contents (Add (reach α m cs) (some x)).1 = contents (reach α m cs) ++ [some x]) ∧
    (contents (reach α m cs) = [] →
      Next (reach α m cs) = (reach α m cs, Outcome.ret none)) ∧
    (∀ (y : Option α) (l : List (Option α)), contents (reach α m cs) = y :: l →
      y ≠ none ∧ (Next (reach α m cs)).2 = Outcome.ret y ∧
        contents (Next (reach α m cs)).1 = l) ∧
    contents (Len (reach α m cs)).1 = contents (reach α m cs) ∧
    delivered (answers α m cs) <+: accepted cs (answers α m cs) := by
  have hq := reach_inv (α := α) m cs
  refine ⟨?_, ?_, ?_, ?_, rfl, ?_⟩
  · intro x hx
    rcases SafeAdd_inv hq x with ⟨_, _, h3, _⟩ | h
    · exact h3
    · rw [h] at hx
      cases hx
  · intro x hx
    rw [Add_eq_SafeAdd] at hx ⊢
    rcases SafeAdd_inv hq x with ⟨_, _, h3, _⟩ | h
    · exact h3
    · rw [h] at hx
      cases hx
  · intro he
    rcases Next_inv hq with ⟨_, h2⟩ | ⟨y, _, h2, _, _⟩
    · exact h2
    · rw [h2] at he
      cases he
  · intro y l hyl
    rcases Next_inv hq with ⟨h1, _⟩ | ⟨z, h1, h2, _, _⟩
    · rw [h1] at hyl
      cases hyl
    · rw [h2] at hyl
      injection hyl with e1 e2
      subst e1
      exact ⟨by simp, h1, e2⟩
  · have := (run_inv cs (Inv_new (α := α) m)).2.2
    rw [contents_new, List.nil_append] at this
    exact ⟨_, this⟩

/-- C3. Count consistency: after any sequence of `Add`/`SafeAdd`/`Next`/`Len` calls on a
queue built by `NewLimitQueue(m)`, `Len()` is the number of insertions that succeeded minus
the number of `Next()` calls that returned a non-nil item; `Len()` is `0` on the new queue
and never negative. -/
theorem len_consistent (m : Int) (cs : List (Call α)) :
    (Len (reach α m cs)).2 =
        ((accepted cs (answers α m cs)).length : Int) - ((delivered (answers α m cs)).length : Int) ∧
      (Len (NewLimitQueue α m)).2 = 0 ∧ 0 ≤ (Len (reach α m cs)).2 := by
  have hq := reach_inv (α := α) m cs
  have hc := hq.count_eq
  have := congrArg List.length (run_inv cs (Inv_new (α := α) m)).2.2
  rw [contents_new, List.nil_append, List.length_append] at this
  refine ⟨?_, rfl, ?_⟩
  · show (reach α m cs).count = _
    rw [hc]
    simp only [answers, reach] at this ⊢
    omega
  · show 0 ≤ (reach α m cs).count
    rw [hc]
    exact Int.natCast_nonneg _

/-- C4. Capacity enforcement: for `m ≥ 1` with `m * 64` within the range of `int`, on a queue
freshly built by `NewLimitQueue(m)` the first `m * 64` calls of `SafeAdd` with non-nil items,
with no `Next` in between, all return nil, and the following one returns the
`ERR_OUT_OF_SIZE_LIMIT` error. -/
theorem capacity_enforced (m : Int) (hm : 1 ≤ m) (hov : m * 64 < 2 ^ 63) (xs : List α) (y : α)
    (hlen : (xs.length : Int) = m * 64) :
    answers α m (xs.map (fun x => Call.SafeAdd (some x))) =
        xs.map (fun _ => Ret.SafeAdd (Outcome.ret none)) ∧
      (SafeAdd (reach α m (xs.map (fun x => Call.SafeAdd (some x)))) (some y)).2 =
        Outcome.ret (some { eid := ERR_OUT_OF_SIZE_LIMIT }) := by
  have hms : wrapInt (m * chunkSize) = m * 64 := by
    unfold chunkSize
    exact wrapInt_eq _ (by omega) (by omega)
  obtain ⟨w, h1, g1, p1, c1, m1⟩ := run_packed xs (View.new α m) (Good_new m) (Packed_new m)
    (by simp only [View.new, hms]; omega)
  have h1' : run (NewLimitQueue α m) (xs.map (fun x => Call.SafeAdd (some x))) =
      (w.toQueue, xs.map (fun _ => Ret.SafeAdd (Outcome.ret none))) := h1
  simp only [View.new, hms] at c1 m1
  refine ⟨by simp only [answers, h1'], ?_⟩
  simp only [reach, h1']
  rw [SafeAdd_packed_full g1 p1 (by omega) (by omega) y]

theorem fifo_order_witness :
    List.Forall₂ insertionOf [Call.SafeAdd (some 7), Call.Add (some 8)] [7, 8] ∧
    (∀ r ∈ answers Nat 1 [Call.SafeAdd (some 7), Call.Add (some 8)], succeeded r) ∧
    (run (reach Nat 1 [Call.SafeAdd (some 7), Call.Add (some 8)])
        (List.replicate [7, 8].length Call.Next)).2 =
      [7, 8].map (fun x => Ret.Next (Outcome.ret (some x))) :=
  have hcalls : List.Forall₂ insertionOf [Call.SafeAdd (some 7), Call.Add (some 8)] [7, 8] :=
    List.Forall₂.cons (Or.inr rfl) (List.Forall₂.cons (Or.inl rfl) List.Forall₂.nil)
  have hok : ∀ r ∈ answers Nat 1 [Call.SafeAdd (some 7), Call.Add (some 8)], succeeded r := by
    intro r hr
    have e : answers Nat 1 [Call.SafeAdd (some 7), Call.Add (some 8)] =
        [Ret.SafeAdd (Outcome.ret none), Ret.Add (Outcome.ret ())] := by decide
    rw [e] at hr
    simp only [List.mem_cons, List.mem_singleton, List.not_mem_nil, or_false] at hr
    rcases hr with rfl | rfl
    · exact Or.inr rfl
    · exact Or.inl rfl
  ⟨hcalls, hok, fifo_order 1 _ _ hcalls hok⟩

theorem refines_list_witness :
    contents (reach Nat 1 [Call.SafeAdd (some 7), Call.Add (some 8)]) = [some 7, some 8] ∧
      (Next (reach Nat 1 [Call.SafeAdd (some 7), Call.Add (some 8)])).2 =
        Outcome.ret (some 7) ∧
      contents (Next (reach Nat 1 [Call.SafeAdd (some 7), Call.Add (some 8)])).1 = [some 8] :=
  ⟨by decide,
    ((refines_list 1 [Call.SafeAdd (some 7), Call.Add (some 8)]).2.2.2.1 (some 7) [some 8]
      (by decide)).2⟩

set_option maxRecDepth 1000000

theorem capacity_enforced_witness :
    (1 : Int) ≤ 1 ∧ (1 : Int) * 64 < 2 ^ 63 ∧ ((List.range 64).length : Int) = 1 * 64 ∧
    answers Nat 1 ((List.range 64).map (fun x => Call.SafeAdd (some x))) =
        (List.range 64).map (fun _ => Ret.SafeAdd (Outcome.ret none)) ∧
      (SafeAdd (reach Nat 1 ((List.range 64).map (fun x => Call.SafeAdd (some x)))) (some 64)).2 =
        Outcome.ret (some { eid := ERR_OUT_OF_SIZE_LIMIT }) :=
  ⟨by decide, by norm_num, by simp,
    capacity_enforced 1 (by decide) (by norm_num) (List.range 64) 64 (by simp)⟩

/-- C5. The item count passes the configured capacity: on `NewLimitQueue(1)`, whose `maxsize`
is `64`, after 64 successful `SafeAdd` calls, one `Next` and two more `SafeAdd` calls, which
both return nil, `Len()` is `65`. -/
theorem count_exceeds_maxsize :
    (reach Nat 1 (fill 0 64 ++ [Call.Next, Call.SafeAdd (some 64), Call.SafeAdd (some 65)])).maxsize
        = 64 ∧
      (answers Nat 1
        (fill 0 64 ++ [Call.Next, Call.SafeAdd (some 64), Call.SafeAdd (some 65)])).drop 64 =
        [Ret.Next (Outcome.ret (some 0)), Ret.SafeAdd (Outcome.ret none),
          Ret.SafeAdd (Outcome.ret none)] ∧
      (Len (reach Nat 1
        (fill 0 64 ++ [Call.Next, Call.SafeAdd (some 64), Call.SafeAdd (some 65)]))).2 = 65 := by
  decide

/-- C6. The chain grows past the configured number of chunks: on `NewLimitQueue(1)`, after 64
successful `SafeAdd` calls and one `Next`, the chain has one chunk, and one more `SafeAdd`
returns nil and leaves a chain of two chunks. -/
theorem chain_exceeds_cap :
    (chain (reach Nat 1 (fill 0 64 ++ [Call.Next]))).length = 1 ∧
      (SafeAdd (reach Nat 1 (fill 0 64 ++ [Call.Next])) (some 64)).2 = Outcome.ret none ∧
      (chain (SafeAdd (reach Nat 1 (fill 0 64 ++ [Call.Next])) (some 64)).1).length = 2 := by
  decide

/-- C7. The capacity failure is not decided by the number of chunks: on `NewLimitQueue(1)`,
after 64 successful `SafeAdd` calls and one `Next` the chain consists of `1` chunk and the
tail chunk is full, yet `SafeAdd` of a non-nil item returns nil and `Add` does not panic;
and after 64 more successful `SafeAdd` calls the chain consists of `2` chunks, not `1`, and
`SafeAdd` returns the `ERR_OUT_OF_SIZE_LIMIT` error and `Add` panics. -/
theorem capacity_error_not_by_chunks :
    ((chain (reach Nat 1 (fill 0 64 ++ [Call.Next]))).length = 1 ∧
      tailLast (reach Nat 1 (fill 0 64 ++ [Call.Next])) = some 64 ∧
      (SafeAdd (reach Nat 1 (fill 0 64 ++ [Call.Next])) (some 64)).2 = Outcome.ret none ∧
      (Add (reach Nat 1 (fill 0 64 ++ [Call.Next])) (some 64)).2 = Outcome.ret ()) ∧
    ((chain (reach Nat 1 (fill 0 64 ++ [Call.Next] ++ fill 64 64))).length = 2 ∧
      tailLast (reach Nat 1 (fill 0 64 ++ [Call.Next] ++ fill 64 64)) = some 64 ∧
      (SafeAdd (reach Nat 1 (fill 0 64 ++ [Call.Next] ++ fill 64 64)) (some 128)).2 =
        Outcome.ret (some { eid := ERR_OUT_OF_SIZE_LIMIT }) ∧
      (Add (reach Nat 1 (fill 0 64 ++ [Call.Next] ++ fill 64 64)) (some 128)).2 =
        Outcome.panic (Panic.explicit "out of max chunk number")) := by
  decide

/-- C8. Sentinel rejection: in every queue state, `SafeAdd(nil)` returns the `ERR_ADD_NIL`
error, which is neither success nor the capacity error, and leaves the whole queue state,
`Len()` included, unchanged. -/
theorem safeAdd_nil_rejected (q : Queue α) :
    (SafeAdd q none).2 = Outcome.ret (some { eid := ERR_ADD_NIL }) ∧
      (SafeAdd q none).2 ≠ Outcome.ret none ∧
      (SafeAdd q none).2 ≠ Outcome.ret (some { eid := ERR_OUT_OF_SIZE_LIMIT }) ∧
      (SafeAdd q none).1 = q ∧ (Len (SafeAdd q none).1).2 = (Len q).2 := by
  refine ⟨rfl, ?_, ?_, rfl, rfl⟩
  · simp [SafeAdd]
  · simp [SafeAdd, ERR_ADD_NIL, ERR_OUT_OF_SIZE_LIMIT]

/-- C9. Atomicity of the checked insert: in every queue state and for every item, if
`SafeAdd` returns a non-nil error then the error is `ERR_ADD_NIL` or `ERR_OUT_OF_SIZE_LIMIT`
and the state after the call is the state before it: `head`, `tail`, `count`, `maxsize` and
the whole chunk store, so no chunk was changed, allocated or linked. -/
theorem safeAdd_error_atomic (q : Queue α) (item : Option α) (e : ErrLimitFIFO)
    (h : (SafeAdd q item).2 = Outcome.ret (some e)) :
    (SafeAdd q item).1 = q ∧
      (e = { eid := ERR_ADD_NIL } ∨ e = { eid := ERR_OUT_OF_SIZE_LIMIT }) := by
  unfold SafeAdd at h ⊢
  cases item with
  | none =>
    simp only [Outcome.ret.injEq, Option.some.injEq] at h
    exact ⟨rfl, Or.inl h.symm⟩
  | some x =>
    simp only at h ⊢
    split at h
    · split at h
      · split at h
        · split at h <;> simp at h
        · simp only [Outcome.ret.injEq, Option.some.injEq] at h
          rename_i h1 h2
          simp only [h1, h2, if_true, if_false]
          exact ⟨trivial, Or.inr h.symm⟩
      · split at h <;> simp at h
    · simp at h

theorem safeAdd_error_atomic_witness :
    (SafeAdd (reach Nat 1 (fill 0 64)) (some 64)).2 =
        Outcome.ret (some { eid := ERR_OUT_OF_SIZE_LIMIT }) ∧
      (SafeAdd (reach Nat 1 (fill 0 64)) (some 64)).1 = reach Nat 1 (fill 0 64) :=
  ⟨by decide,
    (safeAdd_error_atomic (reach Nat 1 (fill 0 64)) (some 64)
      { eid := ERR_OUT_OF_SIZE_LIMIT } (by decide)).1⟩

/-- C10. Empty-queue removal: in every queue state with `Len() == 0`, `Next()` returns nil
and leaves `Len()` and the rest of the queue state unchanged. -/
theorem next_on_empty (q : Queue α) (h : (Len q).2 = 0) :
    (Next q).2 = Outcome.ret none ∧ (Next q).1 = q ∧ (Len (Next q).1).2 = (Len q).2 := by
  have := Next_zero q h
  rw [this]
  exact ⟨rfl, rfl, rfl⟩

theorem next_on_empty_witness :
    (Len (NewLimitQueue Nat 1)).2 = 0 ∧ (Next (NewLimitQueue Nat 1)).2 = Outcome.ret none ∧
      (Next (NewLimitQueue Nat 1)).1 = NewLimitQueue Nat 1 :=
  ⟨rfl, (next_on_empty (NewLimitQueue Nat 1) rfl).1, (next_on_empty (NewLimitQueue Nat 1) rfl).2.1⟩

theorem toQueue_load_head (v : View α) :
    load v.toQueue.mem v.toQueue.head = v.live.head? := by
  show (v.dead ++ (v.mid ++ [v.tc]))[v.dead.length]? = (v.mid ++ [v.tc]).head?
  cases hm : v.mid with
  | nil => simp
  | cons c cs => simpa using getElem?_head_addr v.dead (cs ++ [v.tc]) c

theorem Good.mid_span {v : View α} (g : Good v) :
    ∀ c ∈ v.mid, 0 ≤ c.first ∧ c.first < 64 ∧ c.last = 64 := by
  intro c hc
  have h1 := g.full c hc
  have h2 := g.ok c (by simp [View.live, hc])
  omega

theorem Good.count_mid {v : View α} (g : Good v) :
    v.count = (v.mid.map (fun c => c.last - c.first)).sum + (v.tc.last - v.tc.first) := by
  have := g.count_eq
  simpa [View.live] using this

theorem Good.zero_count {v : View α} (g : Good v) (h : v.count = 0) :
    v.mid = [] ∧ v.tc.first = 0 ∧ v.tc.last = 0 := by
  have ht := g.tc_ok
  have hc := g.count_mid
  cases hm : v.mid with
  | nil =>
    rw [hm] at hc
    simp only [List.map_nil, List.sum_nil, zero_add] at hc
    exact ⟨rfl, by omega, by omega⟩
  | cons c cs =>
    exfalso
    have h1 := g.mid_span c (by simp [hm])
    have h2 := sum_span_nonneg cs (fun d hd => (g.ok d (by simp [View.live, hm, hd])).2.2.2.1)
    rw [hm] at hc
    simp only [List.map_cons, List.sum_cons] at hc
    omega

theorem Good.head_span {v : View α} (g : Good v) (h : 0 < v.count) :
    ∃ hc, v.live.head? = some hc ∧ hc.first < hc.last := by
  have ht := g.tc_ok
  have hc := g.count_mid
  cases hm : v.mid with
  | nil =>
    rw [hm] at hc
    simp only [List.map_nil, List.sum_nil, zero_add] at hc
    exact ⟨v.tc, by simp [View.live, hm], by omega⟩
  | cons c cs =>
    have h1 := g.mid_span c (by simp [hm])
    exact ⟨c, by simp [View.live, hm], by omega⟩

theorem linked_reaches (mem : List (chunk α)) :
    ∀ (mid dead : List (chunk α)) (rest : List (chunk α)), mem = dead ++ (mid ++ rest) →
      Linked dead.length mid →
      Relation.ReflTransGen (linksTo mem) dead.length (dead.length + mid.length) := by
  intro mid
  induction mid with
  | nil => intro dead rest _ _; exact Relation.ReflTransGen.refl
  | cons c cs ih =>
    intro dead rest hmem hl
    have h1 : linksTo mem dead.length (dead.length + 1) :=
      ⟨c, by rw [hmem]; exact getElem?_head_addr dead (cs ++ rest) c, hl.1⟩
    have h2 := ih (dead ++ [c]) rest (by simp [hmem]) (by simpa using hl.2)
    have e : (dead ++ [c]).length + cs.length = dead.length + (c :: cs).length := by
      simp; omega
    rw [List.length_append, List.length_singleton] at h2
    rw [List.length_append, List.length_singleton] at e
    rw [e] at h2
    exact Relation.ReflTransGen.head h1 h2

theorem Good.mid_length_le {v : View α} (g : Good v) (m : Int) (hm : v.maxsize ≤ m * 64) :
    (v.mid.length : Int) ≤ m ∨ v.mid = [] := by
  cases hmid : v.mid with
  | nil => exact Or.inr rfl
  | cons c cs =>
    left
    have hr := g.room (by simp [hmid])
    have hc := g.count_mid
    have ht := g.tc_ok
    have hf := g.fresh v.tc (by simp [View.live, hmid])
    have h1 := g.mid_span c (by simp [hmid])
    have hs : ∀ l : List (chunk α), (∀ d ∈ l, d.last = 64 ∧ d.first = 0) →
        (l.map (fun d => d.last - d.first)).sum = 64 * (l.length : Int) := by
      intro l
      induction l with
      | nil => intro _; simp
      | cons d ds ih =>
        intro h
        have hd := h d (by simp)
        have := ih (fun e he => h e (List.mem_cons_of_mem _ he))
        simp only [List.map_cons, List.sum_cons, List.length_cons, Nat.cast_add, Nat.cast_one]
        omega
    have h2 := hs cs (fun d hd => ⟨g.full d (by simp [hmid, hd]),
      (g.fresh d (by simp [View.live, hmid, hd])).1⟩)
    rw [hmid] at hc
    simp only [List.map_cons, List.sum_cons] at hc
    simp only [List.length_cons, Nat.cast_add, Nat.cast_one]
    omega

theorem wrapInt_mul64_le (m : Int) (hm : 1 ≤ m) : wrapInt (m * chunkSize) ≤ m * 64 := by
  unfold wrapInt chunkSize
  omega

theorem Inv.head_cursors {q : Queue α} (hq : Inv q) (h : 0 < q.count) :
    ∃ hc, load q.mem q.head = some hc ∧ 0 ≤ hc.first ∧ hc.first < hc.last ∧ hc.last ≤ 64 := by
  obtain ⟨v, rfl, g⟩ := hq
  obtain ⟨hc, h1, h2⟩ := g.head_span h
  have hm : hc ∈ v.live := List.mem_of_mem_head? h1
  have := g.ok hc hm
  exact ⟨hc, by rw [toQueue_load_head, h1], this.2.1, h2, this.2.2.1⟩

theorem Inv.load_head {q : Queue α} (hq : Inv q) : ∃ hc, load q.mem q.head = some hc := by
  obtain ⟨v, rfl, g⟩ := hq
  rw [toQueue_load_head]
  cases hm : v.mid with
  | nil => exact ⟨v.tc, by simp [View.live, hm]⟩
  | cons c cs => exact ⟨c, by simp [View.live, hm]⟩

theorem Inv.load_tail {q : Queue α} (hq : Inv q) :
    ∃ t tc, q.tail = some t ∧ q.mem[t]? = some tc ∧ tc.next = none ∧ 0 ≤ tc.last ∧
      tc.last ≤ 64 ∧ (chain q).getLast? = some tc := by
  obtain ⟨v, rfl, g⟩ := hq
  have ht := g.tc_ok
  refine ⟨v.dead.length + v.mid.length, v.tc, rfl, getElem?_tail_addr _ _ _, g.tail_next,
    by omega, ht.2.2.1, ?_⟩
  rw [chain_view g]
  simp [View.live]

theorem Inv.next_outcome {q : Queue α} (hq : Inv q) :
    (q.count = 0 ∧ (Next q).2 = Outcome.ret none) ∨
      (q.count ≠ 0 ∧ ∃ y : α, (Next q).2 = Outcome.ret (some y)) := by
  have hc := hq.count_eq
  rcases Next_inv hq with ⟨h1, h2⟩ | ⟨y, h1, h2, _, _⟩
  · left
    rw [h1] at hc
    exact ⟨by simpa using hc, by rw [h2]⟩
  · right
    rw [h2] at hc
    refine ⟨?_, y, h1⟩
    simp only [List.length_cons, Nat.cast_add, Nat.cast_one] at hc
    omega

/-- C16. The secondary emptiness guard of `Next` is unreachable: in every state reachable
from `NewLimitQueue(m)` by `Add`/`SafeAdd`/`Next`/`Len` calls, `count > 0` implies
`head.first < head.last`; so `Next()` returns nil if and only if `count == 0`, and every
`Next()` on a non-empty reachable queue returns a non-nil item. -/
theorem secondary_guard_unreachable (m : Int) (cs : List (Call α)) :
    (0 < (reach α m cs).count →
      ∃ hc, load (reach α m cs).mem (reach α m cs).head = some hc ∧ hc.first < hc.last) ∧
    ((Next (reach α m cs)).2 = Outcome.ret none ↔ (reach α m cs).count = 0) ∧
    ((reach α m cs).count ≠ 0 → ∃ y : α, (Next (reach α m cs)).2 = Outcome.ret (some y)) := by
  have hq := reach_inv (α := α) m cs
  refine ⟨?_, ?_, ?_⟩
  · intro h
    obtain ⟨hc, h1, _, h2, _⟩ := hq.head_cursors h
    exact ⟨hc, h1, h2⟩
  · rcases hq.next_outcome with ⟨h1, h2⟩ | ⟨h1, y, h2⟩
    · exact ⟨fun _ => h1, fun _ => h2⟩
    · constructor
      · intro h
        rw [h2] at h
        cases h
      · intro h
        exact absurd h h1
  · intro h
    rcases hq.next_outcome with ⟨h1, _⟩ | ⟨_, y, h2⟩
    · exact absurd h1 h
    · exact ⟨y, h2⟩

/-- C17. Count equals the occupied slots: in every state reachable from `NewLimitQueue(m)` by
`Add`/`SafeAdd`/`Next`/`Len` calls, the tail chunk is reached from the head chunk by following
`next` pointers, it is the last chunk of the chain, `tail.next` is nil, and `count` is the sum
of `last - first` over the chunks of the chain from head to tail inclusive. -/
theorem count_is_occupied_slots (m : Int) (cs : List (Call α)) :
    (∃ h t tc, (reach α m cs).head = some h ∧ (reach α m cs).tail = some t ∧
      Relation.ReflTransGen (linksTo (reach α m cs).mem) h t ∧
      (reach α m cs).mem[t]? = some tc ∧ tc.next = none ∧
      (chain (reach α m cs)).getLast? = some tc) ∧
    (reach α m cs).count = ((chain (reach α m cs)).map (fun c => c.last - c.first)).sum := by
  obtain ⟨v, hv, g⟩ := reach_inv (α := α) m cs
  rw [hv]
  refine ⟨⟨v.dead.length, v.dead.length + v.mid.length, v.tc, rfl, rfl, ?_,
    getElem?_tail_addr _ _ _, g.tail_next, ?_⟩, ?_⟩
  · exact linked_reaches _ v.mid v.dead [v.tc] rfl g.linked
  · rw [chain_view g]
    simp [View.live]
  · rw [chain_view g]
    exact g.count_eq

/-- C18. Chunk cursor invariant: in every state reachable from `NewLimitQueue(m)` by
`Add`/`SafeAdd`/`Next`/`Len` calls, every chunk of the chain from head to tail has
`0 <= first <= last <= 64` and non-nil items in the slots `[first, last)`, every chunk other
than the tail has `last = 64`, and every chunk other than the head has `first = 0`. -/
theorem chunk_cursors (m : Int) (cs : List (Call α)) :
    (∀ c ∈ chain (reach α m cs), 0 ≤ c.first ∧ c.first ≤ c.last ∧ c.last ≤ 64 ∧
      ∀ x ∈ slots c, x ≠ none) ∧
    (∀ c ∈ (chain (reach α m cs)).dropLast, c.last = 64) ∧
    (∀ c ∈ (chain (reach α m cs)).tail, c.first = 0) := by
  obtain ⟨v, hv, g⟩ := reach_inv (α := α) m cs
  rw [hv, chain_view g]
  refine ⟨?_, ?_, ?_⟩
  · intro c hc
    have := g.ok c hc
    exact ⟨this.2.1, by omega, this.2.2.1, this.2.2.2.2⟩
  · intro c hc
    simp only [View.live, List.dropLast_concat] at hc
    exact g.full c hc
  · intro c hc
    exact (g.fresh c hc).1

/-- C19. No run-time fault on reachable states: in every state reachable from
`NewLimitQueue(m)` by `Add`/`SafeAdd`/`Next`/`Len` calls, `SafeAdd` and `Next` return (their
array index is inside `[0, 64)` and the pointers they follow are not nil, the model raising a
fault otherwise), `Add` returns or raises one of its two own panics, the tail chunk exists
with `0 <= last <= 64`, the head chunk exists and on a non-empty queue has `first` inside
`[0, 64)`, and after a `Next` the head pointer still points to a chunk. -/
theorem no_runtime_fault (m : Int) (cs : List (Call α)) (item : Option α) :
    (∃ e, (SafeAdd (reach α m cs) item).2 = Outcome.ret e) ∧
    addDocumented (Add (reach α m cs) item).2 ∧
    (∃ r, (Next (reach α m cs)).2 = Outcome.ret r) ∧
    (∃ tc, load (reach α m cs).mem (reach α m cs).tail = some tc ∧ 0 ≤ tc.last ∧ tc.last ≤ 64) ∧
    (∃ hc, load (reach α m cs).mem (reach α m cs).head = some hc ∧
      ((reach α m cs).count ≠ 0 → 0 ≤ hc.first ∧ hc.first < 64)) ∧
    (∃ hc, load (Next (reach α m cs)).1.mem (Next (reach α m cs)).1.head = some hc) := by
  have hq := reach_inv (α := α) m cs
  have hsafe : (SafeAdd (reach α m cs) item).2 = Outcome.ret none ∨
      (SafeAdd (reach α m cs) item).2 = Outcome.ret (some { eid := ERR_ADD_NIL }) ∨
      (SafeAdd (reach α m cs) item).2 = Outcome.ret (some { eid := ERR_OUT_OF_SIZE_LIMIT }) := by
    cases item with
    | none => exact Or.inr (Or.inl rfl)
    | some x =>
      rcases SafeAdd_inv hq x with ⟨_, h2, _, _⟩ | h
      · exact Or.inl h2
      · exact Or.inr (Or.inr (by rw [h]))
  refine ⟨?_, ?_, ?_, ?_, ?_, ?_⟩
  · rcases hsafe with h | h | h <;> exact ⟨_, h⟩
  · rw [Add_eq_SafeAdd]
    rcases hsafe with h | h | h
    · exact Or.inl (by rw [h]; rfl)
    · exact Or.inr (Or.inl (by rw [h]; rfl))
    · exact Or.inr (Or.inr (by rw [h]; rfl))
  · rcases hq.next_outcome with ⟨_, h⟩ | ⟨_, y, h⟩ <;> exact ⟨_, h⟩
  · obtain ⟨t, tc, h1, h2, _, h3, h4, _⟩ := hq.load_tail
    exact ⟨tc, by rw [h1]; exact h2, h3, h4⟩
  · obtain ⟨hc, h1⟩ := hq.load_head
    refine ⟨hc, h1, ?_⟩
    intro hne
    have hpos : 0 < (reach α m cs).count := by
      have := hq.count_eq
      omega
    obtain ⟨hc2, h2, h3, h4, h5⟩ := hq.head_cursors hpos
    rw [h1] at h2
    cases h2
    omega
  · rcases Next_inv hq with ⟨_, h⟩ | ⟨_, _, _, h, _⟩
    · rw [h]
      exact hq.load_head
    · exact h.load_head

/-- C20. Bounded overshoot of the limit: for every `m ≥ 1`, in every state reachable from
`NewLimitQueue(m)` by `Add`/`SafeAdd`/`Next`/`Len` calls the chain has at most `m + 1` chunks
and `count <= m * 64 + 63`; and the bound is attained for `m = 1`: 64 insertions, one `Next`
and 64 more insertions all succeed and leave `count = 127` in a chain of `2` chunks. -/
theorem bounded_overshoot (m : Int) (hm : 1 ≤ m) (cs : List (Call α)) :
    (((chain (reach α m cs)).length : Int) ≤ m + 1 ∧ (reach α m cs).count ≤ m * 64 + 63) ∧
    (answers Nat 1 (fill 0 64 ++ [Call.Next] ++ fill 64 64) =
        List.replicate 64 (Ret.SafeAdd (Outcome.ret none)) ++
          [Ret.Next (Outcome.ret (some 0))] ++
          List.replicate 64 (Ret.SafeAdd (Outcome.ret none)) ∧
      (reach Nat 1 (fill 0 64 ++ [Call.Next] ++ fill 64 64)).count = 127 ∧
      (chain (reach Nat 1 (fill 0 64 ++ [Call.Next] ++ fill 64 64))).length = 2) := by
  refine ⟨?_, by decide⟩
  have hms : (reach α m cs).maxsize = wrapInt (m * chunkSize) :=
    (run_inv cs (Inv_new (α := α) m)).2.1
  obtain ⟨v, hv, g⟩ := reach_inv (α := α) m cs
  rw [hv] at hms ⊢
  have hle : v.maxsize ≤ m * 64 := by
    have : v.toQueue.maxsize = v.maxsize := rfl
    rw [← this, hms]
    exact wrapInt_mul64_le m hm
  have ht := g.tc_ok
  have hcm := g.count_mid
  rw [chain_view g]
  simp only [View.live, List.length_append, List.length_singleton, Nat.cast_add, Nat.cast_one]
  show (v.mid.length : Int) + 1 ≤ m + 1 ∧ v.count ≤ m * 64 + 63
  rcases g.mid_length_le m hle with h | h
  · refine ⟨by omega, ?_⟩
    by_cases hmid : v.mid = []
    · rw [hmid] at hcm
      simp only [List.map_nil, List.sum_nil, zero_add] at hcm
      omega
    · have := g.room hmid
      omega
  · rw [h] at hcm ⊢
    simp only [List.map_nil, List.sum_nil, zero_add] at hcm
    simp only [List.length_nil, Nat.cast_zero]
    omega

theorem storeItem_fault (q : Queue α) (item : Option α) (p : Panic)
    (h : (storeItem q item).2 = some p) : p = Panic.nilDeref ∨ p = Panic.indexOutOfRange := by
  unfold storeItem at h
  split at h
  · split at h
    · simp at h
    · simp only [Option.some.injEq] at h
      exact Or.inr h.symm
  · simp only [Option.some.injEq] at h
    exact Or.inl h.symm

theorem SafeAdd_outcomes (q : Queue α) (item : Option α) :
    (SafeAdd q item).2 = Outcome.ret none ∨
    (SafeAdd q item).2 = Outcome.ret (some { eid := ERR_ADD_NIL }) ∨
    (SafeAdd q item).2 = Outcome.ret (some { eid := ERR_OUT_OF_SIZE_LIMIT }) ∨
    (SafeAdd q item).2 = Outcome.panic Panic.nilDeref ∨
    (SafeAdd q item).2 = Outcome.panic Panic.indexOutOfRange := by
  have key : ∀ (s : Queue α × Option Panic),
      (s.2 = none ∨ s.2 = some Panic.nilDeref ∨ s.2 = some Panic.indexOutOfRange) →
      ((match s with
        | (q1, none) => (q1, Outcome.ret (none : Option ErrLimitFIFO))
        | (q1, some p) => (q1, Outcome.panic p)).2 = Outcome.ret none ∨
      (match s with
        | (q1, none) => (q1, Outcome.ret (none : Option ErrLimitFIFO))
        | (q1, some p) => (q1, Outcome.panic p)).2 = Outcome.panic Panic.nilDeref ∨
      (match s with
        | (q1, none) => (q1, Outcome.ret (none : Option ErrLimitFIFO))
        | (q1, some p) => (q1, Outcome.panic p)).2 = Outcome.panic Panic.indexOutOfRange) := by
    rintro ⟨q1, o⟩ h
    rcases h with h | h | h <;> simp only at h <;> subst h <;> simp
  have st : ∀ (q1 : Queue α),
      ((storeItem q1 item).2 = none ∨ (storeItem q1 item).2 = some Panic.nilDeref ∨
        (storeItem q1 item).2 = some Panic.indexOutOfRange) := by
    intro q1
    cases hs : (storeItem q1 item).2 with
    | none => exact Or.inl rfl
    | some p =>
      rcases storeItem_fault q1 item p hs with rfl | rfl
      · exact Or.inr (Or.inl rfl)
      · exact Or.inr (Or.inr rfl)
  unfold SafeAdd
  cases item with
  | none => exact Or.inr (Or.inl rfl)
  | some x =>
    simp only
    split
    · split
      · split
        · rcases key _ (st _) with h | h | h
          · exact Or.inl h
          · exact Or.inr (Or.inr (Or.inr (Or.inl h)))
          · exact Or.inr (Or.inr (Or.inr (Or.inr h)))
        · exact Or.inr (Or.inr (Or.inl rfl))
      · rcases key _ (st _) with h | h | h
        · exact Or.inl h
        · exact Or.inr (Or.inr (Or.inr (Or.inl h)))
        · exact Or.inr (Or.inr (Or.inr (Or.inr h)))
    · exact Or.inr (Or.inr (Or.inr (Or.inl rfl)))

/-- C11. A queue built by `NewLimitQueue(0)` accepts items: its `maxsize` is `0`, yet the
first 64 calls of `SafeAdd` with non-nil items return nil, `Add` of a non-nil item returns too,
`Len()` becomes `64`, and only the 65th insertion reports the capacity error. -/
theorem zero_capacity_accepts :
    (NewLimitQueue Nat 0).maxsize = 0 ∧
    (SafeAdd (NewLimitQueue Nat 0) (some 1)).2 = Outcome.ret none ∧
    (Len (SafeAdd (NewLimitQueue Nat 0) (some 1)).1).2 = 1 ∧
    (Add (NewLimitQueue Nat 0) (some 1)).2 = Outcome.ret () ∧
    answers Nat 0 (fill 0 65) =
      List.replicate 64 (Ret.SafeAdd (Outcome.ret none)) ++
        [Ret.SafeAdd (Outcome.ret (some { eid := ERR_OUT_OF_SIZE_LIMIT }))] ∧
    (Len (reach Nat 0 (fill 0 65))).2 = 64 := by
  decide

/-- C13. The concrete scenario on `NewLimitQueue(1)`: `SafeAdd` of `1..64` all return nil and
`Len()` is `64`; `SafeAdd(65)` returns the `ERR_OUT_OF_SIZE_LIMIT` error; `Next()` returns `1`
and `Len()` is `63`; `SafeAdd(65)` returns nil and `Len()` is `64`; the next 64 `Next()` calls
return `2, 3, ..., 64, 65` in order and `Len()` is `0` after the last; one more `Next()`
returns nil. -/
theorem concrete_scenario :
    answers Nat 1
        (fill 1 64 ++
          [Call.Len, Call.SafeAdd (some 65), Call.Next, Call.Len, Call.SafeAdd (some 65),
            Call.Len] ++
          List.replicate 64 Call.Next ++ [Call.Len, Call.Next]) =
      List.replicate 64 (Ret.SafeAdd (Outcome.ret none)) ++
        [Ret.Len 64, Ret.SafeAdd (Outcome.ret (some { eid := ERR_OUT_OF_SIZE_LIMIT })),
          Ret.Next (Outcome.ret (some 1)), Ret.Len 63, Ret.SafeAdd (Outcome.ret none),
          Ret.Len 64] ++
        (List.range' 2 64).map (fun i => Ret.Next (Outcome.ret (some i))) ++
        [Ret.Len 0, Ret.Next (Outcome.ret none)] := by
  decide

/-- C14, as the claim states it, fails on the zero value of `Queue`: there `Add` of a non-nil
item panics (a nil pointer dereference) although `SafeAdd` returns no error, it panics alike. -/
theorem add_panics_without_error :
    (∃ p, (Add (zeroQueue Nat) (some 1)).2 = Outcome.panic p) ∧
      ¬ ∃ e, (SafeAdd (zeroQueue Nat) (some 1)).2 = Outcome.ret (some e) := by
  refine ⟨⟨Panic.nilDeref, rfl⟩, ?_⟩
  rintro ⟨e, he⟩
  have : (SafeAdd (zeroQueue Nat) (some 1)).2 = Outcome.panic Panic.nilDeref := rfl
  rw [this] at he
  cases he

/-- C14, amended. `Add` and `SafeAdd` are the same algorithm with different failure signalling:
in every queue state and for every item they leave the queue in identical states, `Add`
returns exactly when `SafeAdd` returns nil, `Add` raises its panic "can not add nil item to
fifo queue" exactly when `SafeAdd` returns the `ERR_ADD_NIL` error and its panic "out of max
chunk number" exactly when `SafeAdd` returns the `ERR_OUT_OF_SIZE_LIMIT` error, the messages
being those of `ErrLimitFIFO.Error`, and a run-time fault of one is the same fault of the
other; in the states reachable from `NewLimitQueue(m)`, where no run-time fault occurs, `Add`
panics if and only if `SafeAdd` returns a non-nil error. -/
theorem add_safeAdd_agree (q : Queue α) (item : Option α) (m : Int) (cs : List (Call α)) :
    (Add q item).1 = (SafeAdd q item).1 ∧
    ((Add q item).2 = Outcome.ret () ↔ (SafeAdd q item).2 = Outcome.ret none) ∧
    ((Add q item).2 = Outcome.panic (Panic.explicit "can not add nil item to fifo queue") ↔
      (SafeAdd q item).2 = Outcome.ret (some { eid := ERR_ADD_NIL })) ∧
    ((Add q item).2 = Outcome.panic (Panic.explicit "out of max chunk number") ↔
      (SafeAdd q item).2 = Outcome.ret (some { eid := ERR_OUT_OF_SIZE_LIMIT })) ∧
    ErrLimitFIFO.Error { eid := ERR_ADD_NIL } = "can not add nil item to fifo queue" ∧
    ErrLimitFIFO.Error { eid := ERR_OUT_OF_SIZE_LIMIT } = "out of max chunk number" ∧
    ((Add q item).2 = Outcome.panic Panic.nilDeref ↔
      (SafeAdd q item).2 = Outcome.panic Panic.nilDeref) ∧
    ((Add q item).2 = Outcome.panic Panic.indexOutOfRange ↔
      (SafeAdd q item).2 = Outcome.panic Panic.indexOutOfRange) ∧
    ((∃ p, (Add (reach α m cs) item).2 = Outcome.panic p) ↔
      ∃ e, (SafeAdd (reach α m cs) item).2 = Outcome.ret (some e)) := by
  have e1 : ErrLimitFIFO.Error { eid := ERR_ADD_NIL } = "can not add nil item to fifo queue" :=
    rfl
  have e2 : ErrLimitFIFO.Error { eid := ERR_OUT_OF_SIZE_LIMIT } = "out of max chunk number" := by
    decide
  have hne : ("can not add nil item to fifo queue" : String) ≠ "out of max chunk number" := by
    decide
  have hcodes : ({ eid := ERR_ADD_NIL } : ErrLimitFIFO) ≠ { eid := ERR_OUT_OF_SIZE_LIMIT } := by
    decide
  refine ⟨by rw [Add_eq_SafeAdd], ?_, ?_, ?_, e1, e2, ?_, ?_, ?_⟩
  · rw [Add_eq_SafeAdd]
    rcases SafeAdd_outcomes q item with h | h | h | h | h <;> rw [h] <;> simp [addOutcome]
  · rw [Add_eq_SafeAdd]
    rcases SafeAdd_outcomes q item with h | h | h | h | h <;> rw [h] <;>
      simp [addOutcome, e1, e2, hne.symm, hcodes.symm]
  · rw [Add_eq_SafeAdd]
    rcases SafeAdd_outcomes q item with h | h | h | h | h <;> rw [h] <;>
      simp [addOutcome, e1, e2, hne, hcodes]
  · rw [Add_eq_SafeAdd]
    rcases SafeAdd_outcomes q item with h | h | h | h | h <;> rw [h] <;> simp [addOutcome]
  · rw [Add_eq_SafeAdd]
    rcases SafeAdd_outcomes q item with h | h | h | h | h <;> rw [h] <;> simp [addOutcome]
  · have hq := reach_inv (α := α) m cs
    rw [Add_eq_SafeAdd]
    cases item with
    | none =>
      rw [SafeAdd_nil]
      exact ⟨fun _ => ⟨_, rfl⟩, fun _ => ⟨_, rfl⟩⟩
    | some x =>
      rcases SafeAdd_inv hq x with ⟨_, h2, _, _⟩ | h
      · rw [h2]
        constructor
        · rintro ⟨p, hp⟩
          cases hp
        · rintro ⟨e, he⟩
          cases he
      · rw [h]
        exact ⟨fun _ => ⟨_, rfl⟩, fun _ => ⟨_, rfl⟩⟩

theorem storeItem_mem_length (q : Queue α) (item : Option α) :
    (storeItem q item).1.mem.length = q.mem.length := by
  unfold storeItem
  split
  · split
    · simp
    · rfl
  · rfl

theorem SafeAdd_mem_length (q : Queue α) (item : Option α) :
    q.mem.length ≤ (SafeAdd q item).1.mem.length := by
  have key : ∀ (s : Queue α × Option Panic),
      (match s with
        | (q1, none) => (q1, Outcome.ret (none : Option ErrLimitFIFO))
        | (q1, some p) => (q1, Outcome.panic p)).1 = s.1 := by
    rintro ⟨q1, o⟩
    cases o <;> rfl
  unfold SafeAdd
  cases item with
  | none => exact le_refl _
  | some x =>
    simp only
    split
    · split
      · split
        · rw [key, storeItem_mem_length]
          simp [growTail]
        · exact le_refl _
      · rw [key, storeItem_mem_length]
    · exact le_refl _

theorem Next_mem_length (q : Queue α) : (Next q).1.mem.length = q.mem.length := by
  unfold Next
  split
  · rfl
  · split
    · split
      · rfl
      · split
        · simp only
          split
          · split <;> simp
          · simp
        · rfl
    · rfl

theorem step_mem_length (q : Queue α) (c : Call α) :
    q.mem.length ≤ (step q c).1.mem.length := by
  cases c with
  | Add item =>
    simp only [step, Add_eq_SafeAdd]
    exact SafeAdd_mem_length q item
  | SafeAdd item => exact SafeAdd_mem_length q item
  | Next => exact le_of_eq (Next_mem_length q).symm
  | Len => exact le_refl _

theorem run_mem_length (cs : List (Call α)) :
    ∀ q : Queue α, q.mem.length ≤ (run q cs).1.mem.length := by
  induction cs with
  | nil => intro q; exact le_refl _
  | cons c cs ih =>
    intro q
    exact le_trans (step_mem_length q c) (ih (step q c).1)

theorem reach_take_mem_length (m : Int) (cs : List (Call α)) (k : Nat) :
    1 ≤ (reach α m (cs.take k)).mem.length ∧
      (reach α m (cs.take k)).mem.length ≤ (reach α m cs).mem.length := by
  constructor
  · exact run_mem_length (cs.take k) (NewLimitQueue α m)
  · have h := run_append (cs.take k) (cs.drop k) (NewLimitQueue α m)
    rw [List.take_append_drop] at h
    have := run_mem_length (cs.drop k) (run (NewLimitQueue α m) (cs.take k)).1
    unfold reach
    rw [h]
    exact this

theorem Inv.single_chain {q : Queue α} (hq : Inv q) (h : q.mem.length = 1) :
    (chain q).length = 1 := by
  obtain ⟨v, rfl, g⟩ := hq
  rw [chain_view g]
  have : (v.dead ++ (v.mid ++ [v.tc])).length = 1 := h
  simp only [List.length_append, List.length_singleton] at this
  simp only [View.live, List.length_append, List.length_singleton]
  omega

theorem Inv.drained {q : Queue α} (hq : Inv q) (h : q.count = 0) :
    ∃ a c, q.head = some a ∧ q.tail = some a ∧ q.mem[a]? = some c ∧
      c.first = 0 ∧ c.last = 0 ∧ c.next = none := by
  obtain ⟨v, rfl, g⟩ := hq
  obtain ⟨h1, h2, h3⟩ := g.zero_count h
  refine ⟨v.dead.length, v.tc, rfl, ?_, ?_, h2, h3, g.tail_next⟩
  · show some (v.dead.length + v.mid.length) = some v.dead.length
    rw [h1]
    rfl
  · simp [View.toQueue, h1]

theorem run_single_adds (xs : List α) :
    ∀ v : View α, Good v → v.mid = [] → v.tc.last + (xs.length : Int) ≤ 64 →
      ∃ w : View α, run v.toQueue (xs.map (fun x => Call.SafeAdd (some x))) =
          (w.toQueue, xs.map (fun _ => Ret.SafeAdd (Outcome.ret none))) ∧
        Good w ∧ w.mid = [] ∧ w.dead = v.dead ∧ w.count = v.count + (xs.length : Int) := by
  induction xs with
  | nil =>
    intro v g hm _
    exact ⟨v, rfl, g, hm, rfl, by simp⟩
  | cons x xs ih =>
    intro v g hm h
    simp only [List.length_cons, Nat.cast_add, Nat.cast_one] at h
    have hl : v.tc.last < 64 := by omega
    have h1 := SafeAdd_room g hl x
    obtain ⟨u, h2, g2, m2, d2, c2⟩ := ih (v.push (some x)) (Good_push g hl x) hm
      (by simp only [View.push, pushChunk]; omega)
    refine ⟨u, ?_, g2, m2, d2, ?_⟩
    · simp only [List.map_cons, run, step, h1, h2]
    · rw [c2]
      simp only [View.push, List.length_cons, Nat.cast_add, Nat.cast_one]
      omega

theorem pop_single {v : View α} (hm : v.mid = []) :
    v.pop.mid = [] ∧ v.pop.dead = v.dead ∧ v.pop.count = v.count - 1 := by
  unfold View.pop
  rw [hm]
  simp only
  split <;> exact ⟨rfl, rfl, rfl⟩

theorem run_single_nexts (n : Nat) :
    ∀ v : View α, Good v → v.mid = [] → (n : Int) ≤ v.count →
      ∃ w : View α, (run v.toQueue (List.replicate n Call.Next)).1 = w.toQueue ∧
        Good w ∧ w.mid = [] ∧ w.dead = v.dead ∧ w.count = v.count - (n : Int) := by
  induction n with
  | zero =>
    intro v g hm _
    exact ⟨v, rfl, g, hm, rfl, by simp⟩
  | succ n ih =>
    intro v g hm h
    simp only [Nat.cast_add, Nat.cast_one] at h
    have hne : v.count ≠ 0 := by omega
    obtain ⟨item, h1, _, _⟩ := Next_pop g hne
    obtain ⟨p1, p2, p3⟩ := pop_single hm
    obtain ⟨u, h2, g2, m2, d2, c2⟩ := ih v.pop (Good_pop g hne) p1 (by rw [p3]; omega)
    refine ⟨u, ?_, g2, m2, by rw [d2, p2], ?_⟩
    · simp only [List.replicate_succ, run, step, h1, h2]
    · rw [c2, p3]
      simp only [Nat.cast_add, Nat.cast_one]
      omega

theorem accepted_safeAdds (xs : List α) :
    accepted (xs.map (fun x => Call.SafeAdd (some x)))
        (xs.map (fun _ => (Ret.SafeAdd (Outcome.ret none) : Ret α))) = xs.map some ∧
      delivered (xs.map (fun _ => (Ret.SafeAdd (Outcome.ret none) : Ret α))) = [] := by
  induction xs with
  | nil => exact ⟨rfl, rfl⟩
  | cons x xs ih =>
    simp only [List.map_cons, accepted, delivered, ih.1, ih.2]
    exact ⟨trivial, trivial⟩

theorem run_fill_drain_fill (m : Int) (xs ys : List α) (hx : xs.length = 64)
    (hy : ys.length = 64) :
    ∃ w : View α,
      run (NewLimitQueue α m)
          (xs.map (fun x => Call.SafeAdd (some x)) ++ List.replicate 64 Call.Next ++
            ys.map (fun y => Call.SafeAdd (some y))) =
        (w.toQueue,
          xs.map (fun _ => Ret.SafeAdd (Outcome.ret none)) ++
            xs.map (fun x => Ret.Next (Outcome.ret (some x))) ++
            ys.map (fun _ => Ret.SafeAdd (Outcome.ret none))) ∧
      Good w ∧ w.mid = [] ∧ w.dead = [] := by
  obtain ⟨w1, r1, g1, m1, d1, c1⟩ := run_single_adds xs (View.new α m) (Good_new m) rfl
    (by simp [View.new, newChunk, hx])
  have r1' : run (NewLimitQueue α m) (xs.map (fun x => Call.SafeAdd (some x))) =
      (w1.toQueue, xs.map (fun _ => Ret.SafeAdd (Outcome.ret none))) := r1
  have hcont : contents w1.toQueue = xs.map some := by
    have := (run_inv (xs.map (fun x => Call.SafeAdd (some x))) (Inv_new (α := α) m)).2.2
    rw [r1', contents_new] at this
    simp only [(accepted_safeAdds xs).1, (accepted_safeAdds xs).2, List.nil_append] at this
    exact this
  have hn := (run_nexts (xs.map some) w1.toQueue ⟨w1, rfl, g1⟩ hcont).1
  simp only [List.length_map, hx, List.map_map] at hn
  have hc1 : w1.count = 64 := by
    rw [c1]
    simp [View.new, hx]
  obtain ⟨w2, r2, g2, m2, d2, c2⟩ := run_single_nexts 64 w1 g1 m1 (by rw [hc1]; norm_num)
  have hc2 : w2.count = 0 := by
    rw [c2, hc1]
    norm_num
  obtain ⟨_, _, hl2⟩ := g2.zero_count hc2
  obtain ⟨w3, r3, g3, m3, d3, c3⟩ := run_single_adds ys w2 g2 m2 (by rw [hl2]; simp [hy])
  refine ⟨w3, ?_, g3, m3, by rw [d3, d2, d1]; rfl⟩
  rw [run_append, run_append, r1']
  simp only
  have e : run w1.toQueue (List.replicate 64 Call.Next) =
      (w2.toQueue, xs.map (fun x => Ret.Next (Outcome.ret (some x)))) := by
    apply Prod.ext
    · exact r2
    · rw [hn]
      rfl
  rw [e]
  simp only
  rw [r3]

/-- C12. Reuse after drain: in every state reachable from `NewLimitQueue(m)` by
`Add`/`SafeAdd`/`Next`/`Len` calls, when a `Next()` call leaves `count` at `0` the queue is
left with `head = tail` pointing to one chunk with `first = 0`, `last = 0` and `next = nil`;
and on a queue built by `NewLimitQueue(m)` (for every `m`, so in particular every `m ≥ 1`),
inserting 64 items, removing all 64 and inserting 64 more all succeed, the removals returning
the first 64 items in order, and at every point of this scenario the chunk store holds one
chunk only and the chain consists of exactly one chunk: no second chunk is ever allocated. -/
theorem reuse_after_drain (m : Int) (cs : List (Call α)) (xs ys : List α)
    (hx : xs.length = 64) (hy : ys.length = 64) :
    ((Next (reach α m cs)).1.count = 0 →
      ∃ a c, (Next (reach α m cs)).1.head = some a ∧ (Next (reach α m cs)).1.tail = some a ∧
        (Next (reach α m cs)).1.mem[a]? = some c ∧ c.first = 0 ∧ c.last = 0 ∧ c.next = none) ∧
    answers α m
        (xs.map (fun x => Call.SafeAdd (some x)) ++ List.replicate 64 Call.Next ++
          ys.map (fun y => Call.SafeAdd (some y))) =
      xs.map (fun _ => Ret.SafeAdd (Outcome.ret none)) ++
        xs.map (fun x => Ret.Next (Outcome.ret (some x))) ++
        ys.map (fun _ => Ret.SafeAdd (Outcome.ret none)) ∧
    ∀ k : Nat,
      (reach α m
        ((xs.map (fun x => Call.SafeAdd (some x)) ++ List.replicate 64 Call.Next ++
          ys.map (fun y => Call.SafeAdd (some y))).take k)).mem.length = 1 ∧
      (chain (reach α m
        ((xs.map (fun x => Call.SafeAdd (some x)) ++ List.replicate 64 Call.Next ++
          ys.map (fun y => Call.SafeAdd (some y))).take k))).length = 1 := by
  obtain ⟨w, hw, g, hmid, hdead⟩ := run_fill_drain_fill m xs ys hx hy
  refine ⟨?_, ?_, ?_⟩
  · intro h0
    have hq := reach_inv (α := α) m cs
    have hn : Inv (Next (reach α m cs)).1 := by
      rcases Next_inv hq with ⟨_, h⟩ | ⟨_, _, _, h, _⟩
      · rw [h]
        exact hq
      · exact h
    exact hn.drained h0
  · simp only [answers, hw]
  · intro k
    have hfin : (reach α m
        (xs.map (fun x => Call.SafeAdd (some x)) ++ List.replicate 64 Call.Next ++
          ys.map (fun y => Call.SafeAdd (some y)))).mem.length = 1 := by
      simp only [reach, hw]
      show (w.dead ++ (w.mid ++ [w.tc])).length = 1
      rw [hmid, hdead]
      rfl
    have hk := reach_take_mem_length m
      (xs.map (fun x => Call.SafeAdd (some x)) ++ List.replicate 64 Call.Next ++
        ys.map (fun y => Call.SafeAdd (some y))) k
    rw [hfin] at hk
    have h1 : (reach α m
        ((xs.map (fun x => Call.SafeAdd (some x)) ++ List.replicate 64 Call.Next ++
          ys.map (fun y => Call.SafeAdd (some y))).take k)).mem.length = 1 :=
      le_antisymm hk.2 hk.1
    exact ⟨h1, (reach_inv m _).single_chain h1⟩

theorem reuse_after_drain_witness :
    (List.range 64).length = 64 ∧ (List.range' 64 64).length = 64 ∧
    answers Nat 1
        ((List.range 64).map (fun x => Call.SafeAdd (some x)) ++ List.replicate 64 Call.Next ++
          (List.range' 64 64).map (fun y => Call.SafeAdd (some y))) =
      (List.range 64).map (fun _ => Ret.SafeAdd (Outcome.ret none)) ++
        (List.range 64).map (fun x => Ret.Next (Outcome.ret (some x))) ++
        (List.range' 64 64).map (fun _ => Ret.SafeAdd (Outcome.ret none)) :=
  ⟨by decide, by decide,
    (reuse_after_drain 1 [] (List.range 64) (List.range' 64 64) (by decide) (by decide)).2.1⟩

theorem secondary_guard_unreachable_witness :
    0 < (reach Nat 1 [Call.SafeAdd (some 7)]).count ∧
      ∃ hc, load (reach Nat 1 [Call.SafeAdd (some 7)]).mem
          (reach Nat 1 [Call.SafeAdd (some 7)]).head = some hc ∧ hc.first < hc.last :=
  ⟨by decide, (secondary_guard_unreachable 1 [Call.SafeAdd (some 7)]).1 (by decide)⟩

theorem bounded_overshoot_witness :
    (1 : Int) ≤ 1 ∧
      ((chain (reach Nat 1 (fill 0 64 ++ [Call.Next] ++ fill 64 64))).length : Int) ≤ 1 + 1 ∧
      (reach Nat 1 (fill 0 64 ++ [Call.Next] ++ fill 64 64)).count ≤ 1 * 64 + 63 :=
  ⟨by decide, (bounded_overshoot 1 (by decide) (fill 0 64 ++ [Call.Next] ++ fill 64 64)).1⟩

theorem no_runtime_fault_witness :
    (reach Nat 1 [Call.SafeAdd (some 7)]).count ≠ 0 ∧
      ∃ hc, load (reach Nat 1 [Call.SafeAdd (some 7)]).mem
          (reach Nat 1 [Call.SafeAdd (some 7)]).head = some hc ∧
        ((reach Nat 1 [Call.SafeAdd (some 7)]).count ≠ 0 → 0 ≤ hc.first ∧ hc.first < 64) :=
  ⟨by decide, (no_runtime_fault 1 [Call.SafeAdd (some 7)] (some 8)).2.2.2.2.1⟩

end limitfifo
